import Mathlib

/-!
Verification of the structural-repair and extraction pipeline of the
smart-draw repository (code processing pipeline, JSON/XML repair engine,
fence/JSON extraction steps).

The JavaScript sources are shallowly embedded: strings are `List Char`
(wrapped in `String` at the interface), fallible steps are
`String → Except String String`, and JavaScript builtins (`JSON.parse`,
`JSON.stringify`, the regexes used by the repair code) are modelled by
executable Lean functions that follow the builtin semantics.
-/

set_option maxRecDepth 4000

namespace SmartDraw

/-! ## JavaScript character classes

`jsWs` is the JavaScript `\s` class (also the set trimmed by
`String.prototype.trim`): ASCII whitespace, NBSP, the Unicode space
separators, the line separators and the BOM. -/

def jsWs (c : Char) : Bool :=
  let n := c.toNat
  n = 0x9 || n = 0xa || n = 0xb || n = 0xc || n = 0xd || n = 0x20 ||
  n = 0xa0 || n = 0x1680 || (0x2000 ≤ n && n ≤ 0x200a) ||
  n = 0x2028 || n = 0x2029 || n = 0x202f || n = 0x205f || n = 0x3000 ||
  n = 0xfeff

/-- Characters removed by the repair code's
`replace(/﻿/g, '').replace(/[​-‍⁠]/g, '')` pre-pass. -/
def invisCh (c : Char) : Bool :=
  let n := c.toNat
  n = 0xfeff || (0x200b ≤ n && n ≤ 0x200d) || n = 0x2060

def rmInvis (l : List Char) : List Char := l.filter (fun c => !(invisCh c))

/-- Model of JavaScript `String.prototype.trim`. -/
def jsTrimL (l : List Char) : List Char :=
  ((l.dropWhile jsWs).reverse.dropWhile jsWs).reverse

/-- Model of JavaScript `String.prototype.trimEnd`. -/
def jsTrimEndL (l : List Char) : List Char :=
  (l.reverse.dropWhile jsWs).reverse

/-! ## The string-literal scan state

All string-aware scans in the source maintain an (inside-string,
escape-pending) flag pair updated per character.  `strSt` is that update
function; `stRun` folds it over a list; `cntOut t` counts occurrences of
`t` at positions where inside-string is false; `inProjSt` projects out
the characters observed while inside-string is true. -/

def strSt (st : Bool × Bool) (c : Char) : Bool × Bool :=
  if st.1 then
    if st.2 then (true, false)
    else if c = '\\' then (true, true)
    else if c = '"' then (false, false)
    else (true, false)
  else if c = '"' then (true, false)
  else st

def stRun (st : Bool × Bool) : List Char → Bool × Bool
  | [] => st
  | c :: l => stRun (strSt st c) l

def cntOut (t : Char) (st : Bool × Bool) : List Char → Nat
  | [] => 0
  | c :: l => (if st.1 = false ∧ c = t then 1 else 0) + cntOut t (strSt st c) l

def inProjSt (st : Bool × Bool) : List Char → List Char
  | [] => []
  | c :: l => if st.1 then c :: inProjSt (strSt st c) l else inProjSt (strSt st c) l

/-! ## C1: the pipeline engine (`CodeProcessor.process`)

A step is a text→text transform that may throw; a thrown exception is an
`Except.error`.  `process` is the source's `reduce` with the per-step
`try`/`catch` that substitutes the step's input on failure. -/

def Step : Type := String → Except String String

structure CodeProcessor where
  steps : List Step

/-- Embedding of `CodeProcessor.process` from the pipeline module:
`this.steps.reduce((result, step) => { try { return step(result) } catch
{ return result } }, code)`. -/
def CodeProcessor.process (p : CodeProcessor) (code : String) : String :=
  p.steps.foldl
    (fun result step =>
      match step result with
      | .ok r => r
      | .error _ => result)
    code

/-- Defined from the spec's words, for the refinement statement of C1:
apply the steps in order, feeding each step's output to the next, and
when a step throws substitute the input that step received and continue. -/
def processSpec : List Step → String → String
  | [], code => code
  | step :: rest, code =>
    match step code with
    | .ok r => processSpec rest r
    | .error _ => processSpec rest code

/-! ## Model of `JSON.parse`

The repair entry point calls the JavaScript builtin `JSON.parse` (inside
`try`/`catch`) to decide whether a string is valid JSON.  The builtin is
modelled by a recursive-descent recogniser for the JSON grammar
(ECMA-404, which `JSON.parse` implements).  Numbers keep their source
lexeme and string literals keep their raw (undecoded) contents, which is
enough for every property below. -/

inductive JVal where
  | jnull : JVal
  | jbool : Bool → JVal
  | jnum : List Char → JVal
  | jstr : List Char → JVal
  | jarr : List JVal → JVal
  | jobj : List (List Char × JVal) → JVal

/-- JSON insignificant whitespace (exactly these four characters). -/
def jsonWsCh (c : Char) : Bool := c = ' ' || c = '\t' || c = '\n' || c = '\r'

def skipWsJ : List Char → List Char
  | [] => []
  | c :: r => if jsonWsCh c then skipWsJ r else c :: r

def isHexD (c : Char) : Bool :=
  c.isDigit || (decide ('a' ≤ c) && decide (c ≤ 'f')) ||
  (decide ('A' ≤ c) && decide (c ≤ 'F'))

def isEscCh (c : Char) : Bool :=
  c = '"' || c = '\\' || c = '/' || c = 'b' || c = 'f' || c = 'n' ||
  c = 'r' || c = 't'

/-- Body of a JSON string literal, after the opening quote: returns the
raw content (escapes kept) and the rest after the closing quote. -/
def pStrBody : List Char → Option (List Char × List Char)
  | [] => none
  | c :: rest =>
    if c = '"' then some ([], rest)
    else if c = '\\' then
      match rest with
      | [] => none
      | 'u' :: h1 :: h2 :: h3 :: h4 :: rest3 =>
        if isHexD h1 && isHexD h2 && isHexD h3 && isHexD h4 then
          match pStrBody rest3 with
          | some (s, r) => some ('\\' :: 'u' :: h1 :: h2 :: h3 :: h4 :: s, r)
          | none => none
        else none
      | e :: rest2 =>
        if isEscCh e then
          match pStrBody rest2 with
          | some (s, r) => some ('\\' :: e :: s, r)
          | none => none
        else none
    else if c.toNat < 32 then none
    else
      match pStrBody rest with
      | some (s, r) => some (c :: s, r)
      | none => none

def pIntPart : List Char → Option (List Char × List Char)
  | [] => none
  | c :: r =>
    if c = '0' then some (['0'], r)
    else if c.isDigit then
      some (c :: r.takeWhile Char.isDigit, r.dropWhile Char.isDigit)
    else none

def pFracPart : List Char → List Char × List Char
  | [] => ([], [])
  | c :: r =>
    if c = '.' then
      if (r.takeWhile Char.isDigit) = [] then ([], c :: r)
      else (c :: r.takeWhile Char.isDigit, r.dropWhile Char.isDigit)
    else ([], c :: r)

def pExpPart : List Char → List Char × List Char
  | [] => ([], [])
  | [e] => ([], [e])
  | e :: s :: r2 =>
    if e = 'e' ∨ e = 'E' then
      if s = '+' ∨ s = '-' then
        if (r2.takeWhile Char.isDigit) = [] then ([], e :: s :: r2)
        else (e :: s :: r2.takeWhile Char.isDigit, r2.dropWhile Char.isDigit)
      else
        if ((s :: r2).takeWhile Char.isDigit) = [] then ([], e :: s :: r2)
        else (e :: (s :: r2).takeWhile Char.isDigit,
              (s :: r2).dropWhile Char.isDigit)
    else ([], e :: s :: r2)

def pNumTail (l : List Char) : Option (List Char × List Char) :=
  match pIntPart l with
  | some (ip, r1) =>
    let fr := pFracPart r1
    let ex := pExpPart fr.2
    some (ip ++ fr.1 ++ ex.1, ex.2)
  | none => none

def pNum : List Char → Option (List Char × List Char)
  | [] => none
  | c :: r =>
    if c = '-' then
      match pNumTail r with
      | some (lex, rest) => some ('-' :: lex, rest)
      | none => none
    else pNumTail (c :: r)

mutual

def pVal : Nat → List Char → Option (JVal × List Char)
  | 0, _ => none
  | n + 1, l =>
    match l with
    | [] => none
    | c :: rest =>
      if c = '"' then
        match pStrBody rest with
        | some (s, r) => some (.jstr s, r)
        | none => none
      else if c = '{' then
        match skipWsJ rest with
        | '}' :: r2 => some (.jobj [], r2)
        | l1 =>
          match pMembs n l1 with
          | some (ms, '}' :: r2) => some (.jobj ms, r2)
          | _ => none
      else if c = '[' then
        match skipWsJ rest with
        | ']' :: r2 => some (.jarr [], r2)
        | l1 =>
          match pElems n l1 with
          | some (vs, ']' :: r2) => some (.jarr vs, r2)
          | _ => none
      else if c = 't' then
        match l with
        | 't' :: 'r' :: 'u' :: 'e' :: r => some (.jbool true, r)
        | _ => none
      else if c = 'f' then
        match l with
        | 'f' :: 'a' :: 'l' :: 's' :: 'e' :: r => some (.jbool false, r)
        | _ => none
      else if c = 'n' then
        match l with
        | 'n' :: 'u' :: 'l' :: 'l' :: r => some (.jnull, r)
        | _ => none
      else
        match pNum l with
        | some (lex, r) => some (.jnum lex, r)
        | none => none

def pElems : Nat → List Char → Option (List JVal × List Char)
  | 0, _ => none
  | n + 1, l =>
    match pVal n (skipWsJ l) with
    | some (v, r) =>
      match skipWsJ r with
      | ',' :: r2 =>
        match pElems n r2 with
        | some (vs, r3) => some (v :: vs, r3)
        | none => none
      | r1 => some ([v], r1)
    | none => none

def pMembs : Nat → List Char → Option (List (List Char × JVal) × List Char)
  | 0, _ => none
  | n + 1, l =>
    match skipWsJ l with
    | '"' :: r0 =>
      match pStrBody r0 with
      | some (key, r1) =>
        match skipWsJ r1 with
        | ':' :: r3 =>
          match pVal n (skipWsJ r3) with
          | some (v, r4) =>
            match skipWsJ r4 with
            | ',' :: r6 =>
              match pMembs n r6 with
              | some (ms, r7) => some ((key, v) :: ms, r7)
              | none => none
            | r5 => some ([(key, v)], r5)
          | none => none
        | _ => none
      | none => none
    | _ => none

end

/-- Model of `JSON.parse` as used by the repair code: `some v` when the
text is a valid JSON document, `none` when the builtin would throw.
The fuel `2 * length + 4` always suffices: along any chain of recursive
calls at least one input character is consumed per two fuel units. -/
def jsonParseL (l : List Char) : Option JVal :=
  match pVal (2 * l.length + 4) (skipWsJ l) with
  | some (v, r) => if skipWsJ r = [] then some v else none
  | none => none

/-! ## The JSON repair engine (`fixUnclosed.js`)

`stripTrailingCommas` is `text.replace(/,(\s*[}\]])/g, '$1')`.  Because a
match always starts with `,` and its consumed span (`,` + whitespace +
closer) contains no further `,`, the global regex replace deletes exactly
those commas whose next non-whitespace character is `}` or `]`; `stcAux`
performs that deletion left to right. -/

def wsThenCloser : List Char → Bool
  | [] => false
  | c :: r => if jsWs c then wsThenCloser r else (c = '}' || c = ']')

def stcAux : List Char → List Char
  | [] => []
  | c :: rest =>
    if c = ',' ∧ wsThenCloser rest then stcAux rest else c :: stcAux rest

def stripTrailingCommasL (l : List Char) : List Char := stcAux l

/-- The whitespace-then-opener lookahead of the `addMissingCommas`
regexes `}\s*({|\[)` and `]\s*({|\[)`: returns the opener and the text
after it (the matched whitespace is not part of the replacement `$1` and
is dropped, as in the source). -/
def wsOpen : List Char → Option (Char × List Char)
  | [] => none
  | c :: r =>
    if jsWs c then wsOpen r
    else if c = '{' ∨ c = '[' then some (c, r) else none

/-- One global pass of `text.replace(/C\s*({|\[)/g, 'C,$1')` for a fixed
closer `C`. -/
def amcAuxF (cl : Char) : Nat → List Char → List Char
  | 0, l => l
  | _ + 1, [] => []
  | n + 1, c :: rest =>
    if c = cl then
      match wsOpen rest with
      | some (o, r) => cl :: ',' :: o :: amcAuxF cl n r
      | none => c :: amcAuxF cl n rest
    else c :: amcAuxF cl n rest

/-- One global pass of `text.replace(/C\s*({|\[)/g, 'C,$1')` for a fixed
closer `C`.  The fuel `l.length` always suffices: every recursive call
consumes at least one character (`wsOpen_length`). -/
def amcAux (cl : Char) (l : List Char) : List Char := amcAuxF cl l.length l

/-- `addMissingCommas` from the source: the `}`-pass then the `]`-pass. -/
def addMissingCommasL (l : List Char) : List Char := amcAux ']' (amcAux '}' l)

/-- The loop state of `fixJSONStructure`'s character scan (stack of open
delimiters with the top at the head, inside-string and escape flags,
output accumulator, last non-whitespace character emitted). -/
structure JState where
  stack : List Char
  inStr : Bool
  esc : Bool
  out : List Char
  last : Option Char

def closerOf (c : Char) : Char := if c = '{' then '}' else ']'

/-- The `while` loop on a mismatched closer: pop every stack entry that
is not the required opener, emitting its corresponding closer. -/
def popMism : List Char → Char → List Char × List Char
  | [], _ => ([], [])
  | top :: r, need =>
    if top = need then ([], top :: r)
    else
      let pr := popMism r need
      (closerOf top :: pr.1, pr.2)

/-- One iteration of the `fixJSONStructure` scan loop. -/
def scanStep (s : JState) (ch : Char) : JState :=
  if s.inStr then
    if s.esc then { s with out := s.out ++ [ch], esc := false }
    else if ch = '\\' then { s with out := s.out ++ [ch], esc := true }
    else if ch = '"' then { s with out := s.out ++ [ch], inStr := false }
    else { s with out := s.out ++ [ch] }
  else if ch = '"' then { s with out := s.out ++ [ch], inStr := true, esc := false }
  else if ch = '{' ∨ ch = '[' then
    { s with stack := ch :: s.stack, out := s.out ++ [ch], last := some ch }
  else if ch = '}' ∨ ch = ']' then
    let need := if ch = '}' then '{' else '['
    let pr := popMism s.stack need
    let st2 := match pr.2 with
      | top :: r => if top = need then r else pr.2
      | [] => ([] : List Char)
    { s with stack := st2, out := s.out ++ pr.1 ++ [ch], last := some ch }
  else
    { s with out := s.out ++ [ch], last := if jsWs ch then s.last else some ch }

def initJState : JState := ⟨[], false, false, [], none⟩

def runScan (text : List Char) : JState := text.foldl scanStep initJState

/-- `fixJSONStructure` from the source: invisible-character removal,
comma insertion pre-pass, the character scan, unterminated-string
closing, dangling-comma removal, closing of the remaining stack, and the
final trailing-comma cleanup. -/
def fixJSONStructureL (input : List Char) : List Char :=
  let text := addMissingCommasL (rmInvis input)
  let f := runScan text
  let r1 := if f.inStr then f.out ++ ['"'] else f.out
  let last := if f.inStr then some '"' else f.last
  let r2 :=
    if last = some ',' then
      let tr := jsTrimEndL r1
      if tr.getLast? = some ',' then tr.dropLast else tr
    else r1
  let r3 := r2 ++ f.stack.map closerOf
  stripTrailingCommasL r3

/-- `fixJSON` from the source. -/
def fixJSONL (input : List Char) : List Char :=
  let raw := jsTrimL input
  if raw = [] then raw
  else if (jsonParseL raw).isSome then raw
  else
    let fixed := fixJSONStructureL raw
    if (jsonParseL fixed).isSome then fixed
    else stripTrailingCommasL fixed

def fixJSON (input : String) : String := ⟨fixJSONL input.data⟩

/-! ## List utilities shared by the step models -/

/-- Drop an exact prefix (the literal part of a regex). -/
def dropPfxL : List Char → List Char → Option (List Char)
  | [], l => some l
  | _ :: _, [] => none
  | p :: ps, c :: cs => if c = p then dropPfxL ps cs else none

/-- Drop a prefix up to ASCII case (a literal under the `i` flag). -/
def dropPfxCI : List Char → List Char → Option (List Char)
  | [], l => some l
  | _ :: _, [] => none
  | p :: ps, c :: cs => if c.toLower = p.toLower then dropPfxCI ps cs else none

def startsWithL (p : List Char) (l : List Char) : Bool := (dropPfxL p l).isSome

def occursL (pat : List Char) : List Char → Bool
  | [] => (dropPfxL pat []).isSome
  | c :: r => (dropPfxL pat (c :: r)).isSome || occursL pat r

def sliceL (l : List Char) (s e : Nat) : List Char := (l.drop s).take (e - s)

def lastIdxOf (c : Char) (l : List Char) : Option Nat :=
  match l.reverse.findIdx? (fun x => x = c) with
  | some j => some (l.length - 1 - j)
  | none => none

/-! ## `cleanBOM` -/

def cleanBOMCore (l : List Char) : List Char := jsTrimL (rmInvis l)

/-! ## `extractCodeFence`

The tagged pattern is ``` `` ``` + `\s*` + lang + `\s*([\s\S]*?)` + ``` `` ```
(`i` flag); the untagged fallback drops the lang part.  Since `\s` never
matches a backtick or the first character of the lang word, the greedy
`\s*` parts are maximal-munch and the lazy group ends at the first
following triple backtick. -/

def ticks3 : List Char := "```".data

/-- Split at the first occurrence of a triple backtick: the part before
it and the part after it. -/
def splitTicks : List Char → Option (List Char × List Char)
  | [] => none
  | c :: r =>
    match dropPfxL ticks3 (c :: r) with
    | some rest => some ([], rest)
    | none =>
      match splitTicks r with
      | some (g, rest) => some (c :: g, rest)
      | none => none

def tryTagAt (lang : List Char) (l : List Char) : Option (List Char) :=
  match dropPfxL ticks3 l with
  | none => none
  | some l1 =>
    match dropPfxCI lang (l1.dropWhile jsWs) with
    | none => none
    | some l3 =>
      match splitTicks (l3.dropWhile jsWs) with
      | some (g, _) => some g
      | none => none

/-- Leftmost match group of the tagged-fence regex. -/
def findTagged (lang : List Char) : List Char → Option (List Char)
  | [] => none
  | c :: r =>
    match tryTagAt lang (c :: r) with
    | some g => some g
    | none => findTagged lang r

def tryAnyAt (l : List Char) : Option (List Char) :=
  match dropPfxL ticks3 l with
  | none => none
  | some l1 =>
    match splitTicks (l1.dropWhile jsWs) with
    | some (g, _) => some g
    | none => none

/-- Leftmost match group of the any-fence regex. -/
def findAnyF : List Char → Option (List Char)
  | [] => none
  | c :: r =>
    match tryAnyAt (c :: r) with
    | some g => some g
    | none => findAnyF r

/-- The fall-through of `extractCodeFence`: first fenced block of any
kind (truthy group), else the trimmed original. -/
def fenceFallback (l : List Char) : List Char :=
  match findAnyF l with
  | some g => if g ≠ [] then jsTrimL g else jsTrimL l
  | none => jsTrimL l

def extractFenceL (l : List Char) (lang : Option (List Char)) : List Char :=
  match lang with
  | some lg =>
    match findTagged lg l with
    | some g => if g ≠ [] then jsTrimL g else fenceFallback l
    | none => fenceFallback l
  | none => fenceFallback l

/-! ## `unescapeHTML` -/

def isTagStartCh (c : Char) : Bool := c.isAlpha || c = '!' || c = '?'

def hasRawLt : List Char → Bool
  | '<' :: c :: r => if isTagStartCh c then true else hasRawLt (c :: r)
  | _ :: r => hasRawLt r
  | [] => false

def entLtAt (l : List Char) : Bool :=
  match dropPfxCI "&lt;".data l with
  | some r =>
    match r.dropWhile jsWs with
    | c :: _ => isTagStartCh c
    | [] => false
  | none => false

def hasEntLt : List Char → Bool
  | [] => false
  | c :: r => entLtAt (c :: r) || hasEntLt r

def replAllF (p0 : Char) (ps rep : List Char) : Nat → List Char → List Char
  | 0, l => l
  | _ + 1, [] => []
  | n + 1, c :: r =>
    match dropPfxL (p0 :: ps) (c :: r) with
    | some rest => rep ++ replAllF p0 ps rep n rest
    | none => c :: replAllF p0 ps rep n r

/-- `String.prototype.replace` with a global literal pattern (leftmost,
non-overlapping, replacement text not rescanned).  The fuel `l.length`
always suffices: the pattern is nonempty, so every recursive call
consumes at least one character. -/
def replAllL (p0 : Char) (ps rep : List Char) (l : List Char) : List Char :=
  replAllF p0 ps rep l.length l

def unescapeCore (l : List Char) : List Char :=
  if !hasRawLt l && hasEntLt l then
    replAllL '&' "#39;".data "'".data
      (replAllL '&' "quot;".data "\"".data
        (replAllL '&' "amp;".data "&".data
          (replAllL '&' "gt;".data ">".data
            (replAllL '&' "lt;".data "<".data l))))
  else l

/-! ## `extractXML` -/

def xmlNameWs (nm : List Char) (r : List Char) : Bool :=
  match dropPfxCI nm r with
  | some (c :: _) => jsWs c || c = '>'
  | _ => false

def xmlRootAt : List Char → Bool
  | '<' :: r =>
    xmlNameWs "mxfile".data r || xmlNameWs "mxGraphModel".data r ||
    xmlNameWs "diagram".data r
  | _ => false

def searchIdxAux (p : List Char → Bool) : List Char → Nat → Option Nat
  | [], _ => none
  | c :: r, i => if p (c :: r) then some i else searchIdxAux p r (i + 1)

def extractXMLCore (l : List Char) : List Char :=
  match searchIdxAux xmlRootAt l 0, lastIdxOf '>' l with
  | some s, some e => if s < e then sliceL l s (e + 1) else l
  | some _, none => l
  | none, _ => l

/-! ## `normalizeMxTags` -/

def mxNames : List (List Char × List Char) :=
  [("mxgraphmodel".data, "mxGraphModel".data),
   ("mxcell".data, "mxCell".data),
   ("mxgeometry".data, "mxGeometry".data),
   ("mxpoint".data, "mxPoint".data)]

def isWordCh (c : Char) : Bool := c.isAlphanum || c = '_'

/-- Try the four tag-name alternatives in the regex's order, each with
the `\b` boundary check. -/
def mxTryNames : List (List Char × List Char) → List Char → Option (List Char × List Char)
  | [], _ => none
  | (nm, canon) :: rest, l =>
    match dropPfxCI nm l with
    | some r =>
      match r with
      | c :: _ => if isWordCh c then mxTryNames rest l else some (canon, r)
      | [] => some (canon, r)
    | none => mxTryNames rest l

/-- After a `<`: match `\s*` + optional `/` + a known tag name + `\b`,
returning the captured middle (whitespace and optional slash), the
canonical replacement name and the rest. -/
def nmtTry (l : List Char) : Option (List Char × List Char × List Char) :=
  let ws := l.takeWhile jsWs
  match l.dropWhile jsWs with
  | '/' :: r =>
    match mxTryNames mxNames r with
    | some (canon, rest) => some (ws ++ ['/'], canon, rest)
    | none => none
  | l1 =>
    match mxTryNames mxNames l1 with
    | some (canon, rest) => some (ws, canon, rest)
    | none => none

def nmtAuxF : Nat → List Char → List Char
  | 0, l => l
  | _ + 1, [] => []
  | n + 1, c :: rest =>
    if c = '<' then
      match nmtTry rest with
      | some (mid, canon, after) => '<' :: (mid ++ canon ++ nmtAuxF n after)
      | none => c :: nmtAuxF n rest
    else c :: nmtAuxF n rest

/-- `normalizeMxTags`'s global regex replace.  The fuel `l.length`
always suffices: every recursive call consumes at least one character
(a matched name is at least six characters long). -/
def normalizeMxCore (l : List Char) : List Char := nmtAuxF l.length l

/-! ## `extractJSON` and `extractJSONArrayStrict` -/

def extractJSONObjCase (l : List Char) : List Char :=
  match l.findIdx? (fun c => c = '{'), lastIdxOf '}' l with
  | some s, some e => sliceL l s (e + 1)
  | some _, none => l
  | none, _ => l

def extractJSONCore (l : List Char) : List Char :=
  match l.findIdx? (fun c => c = '['), lastIdxOf ']' l with
  | some s, some e =>
    if (match l.findIdx? (fun c => c = '{') with
        | none => true
        | some o => s < o) then sliceL l s (e + 1)
    else extractJSONObjCase l
  | some _, none => extractJSONObjCase l
  | none, _ => extractJSONObjCase l

/-- The depth- and string-aware loop of `extractJSONArrayStrict`:
returns the start index of the first `[` seen outside a string and the
index of the `]` that brings the depth back to zero. -/
def strictScan : List Char → Nat → Option Nat → Nat → Bool → Bool → Option (Nat × Nat)
  | [], _, _, _, _, _ => none
  | c :: rest, i, start, depth, inStr, esc =>
    if inStr then
      if esc then strictScan rest (i + 1) start depth true false
      else if c = '\\' then strictScan rest (i + 1) start depth true true
      else if c = '"' then strictScan rest (i + 1) start depth false false
      else strictScan rest (i + 1) start depth true false
    else if c = '"' then strictScan rest (i + 1) start depth true false
    else if c = '[' then
      strictScan rest (i + 1) (if start = none then some i else start)
        (depth + 1) false esc
    else if c = ']' then
      if 0 < depth then
        if depth = 1 then
          match start with
          | some s => some (s, i)
          | none => strictScan rest (i + 1) none 0 false esc
        else strictScan rest (i + 1) start (depth - 1) false esc
      else strictScan rest (i + 1) start depth false esc
    else strictScan rest (i + 1) start depth false esc

def extractJSONArrayStrictCore (l : List Char) : List Char :=
  match strictScan l 0 none 0 false false with
  | some (s, e) => sliceL l s (e + 1)
  | none => extractJSONCore l

/-! ## The tag repair engine (`fixXMLorHTML`) -/

def defaultVoidTags : List (List Char) :=
  ["area".data, "base".data, "br".data, "col".data, "embed".data,
   "hr".data, "img".data, "input".data, "link".data, "meta".data,
   "param".data, "source".data, "track".data, "wbr".data,
   "mxgeometry".data, "mxpoint".data]

/-- Split at the first `>` or `<`. -/
def splitTagSeg : List Char → List Char × List Char
  | [] => ([], [])
  | c :: r =>
    if c = '>' ∨ c = '<' then ([], c :: r)
    else
      let pr := splitTagSeg r
      (c :: pr.1, pr.2)

def autoCloseF : Nat → List Char → List Char
  | 0, l => l
  | _ + 1, [] => []
  | n + 1, c :: rest =>
    if c = '<' then
      match splitTagSeg rest with
      | (seg, []) => '<' :: (seg ++ ['>'])
      | (seg, d :: after) =>
        if d = '>' then '<' :: (seg ++ '>' :: autoCloseF n after)
        else '<' :: (seg ++ '>' :: autoCloseF n (d :: after))
    else c :: autoCloseF n rest

/-- `autoCloseAngleBrackets` from the source.  The fuel `l.length`
always suffices: every recursive call consumes at least one character. -/
def autoCloseL (l : List Char) : List Char := autoCloseF l.length l

/-- Contents up to the first `>`, and the rest after it (`[^>]+>` needs
the contents nonempty, checked by the caller). -/
def takeToGt : List Char → Option (List Char × List Char)
  | [] => none
  | c :: r =>
    if c = '>' then some ([], r)
    else
      match takeToGt r with
      | some (i, a) => some (c :: i, a)
      | none => none

/-- Leftmost match of `/<([^>]+)>/`: text before the match, the group,
and the text after the match. -/
def findTagM : List Char → Option (List Char × List Char × List Char)
  | [] => none
  | c :: r =>
    if c = '<' then
      match takeToGt r with
      | some ([], _) =>
        match findTagM r with
        | some (b, i, a) => some (c :: b, i, a)
        | none => none
      | some (inner, after) => some ([], inner, after)
      | none => none
    else
      match findTagM r with
      | some (b, i, a) => some (c :: b, i, a)
      | none => none

def normTag (html : Bool) (nm : List Char) : List Char :=
  if html then nm.map Char.toLower else nm

def firstTok (l : List Char) : List Char := l.takeWhile (fun c => !jsWs c)

def tagLoopF (html : Bool) (voids : List (List Char)) :
    Nat → List Char → List (List Char) → List Char × List (List Char)
  | 0, l, stack => (l, stack)
  | n + 1, l, stack =>
    match findTagM l with
    | none => (l, stack)
    | some (b, inner, after) =>
      let rawTag := jsTrimL inner
      if startsWithL "!--".data rawTag || startsWithL "!DOCTYPE".data rawTag ||
         startsWithL "![CDATA[".data rawTag || startsWithL "?".data rawTag then
        let pr := tagLoopF html voids n after stack
        (b ++ '<' :: (rawTag ++ '>' :: pr.1), pr.2)
      else if rawTag.head? = some '/' then
        let nm := normTag html (firstTok (rawTag.drop 1))
        let stack' :=
          match stack with
          | top :: r => if normTag html top = nm then r else top :: r
          | [] => []
        let pr := tagLoopF html voids n after stack'
        (b ++ '<' :: (rawTag ++ '>' :: pr.1), pr.2)
      else
        let selfClosing := rawTag.getLast? = some '/'
        let nm := normTag html (firstTok rawTag)
        let stack' :=
          if !selfClosing && !(voids.contains nm) then nm :: stack else stack
        let pr := tagLoopF html voids n after stack'
        (b ++ '<' :: (rawTag ++ '>' :: pr.1), pr.2)

/-- `fixXMLorHTML` from the source: invisible-character removal, the
missing-`>` pre-pass, the tag scan, and closing tags for every stack
entry in LIFO order.  The fuel `text.length` always suffices: every
iteration consumes at least the matched `<...>` span. -/
def fixXMLorHTMLCore (html : Bool) (voids : List (List Char)) (input : List Char) :
    List Char :=
  let text := autoCloseL (rmInvis input)
  let pr := tagLoopF html voids text.length text []
  pr.1 ++ pr.2.flatMap (fun nm => '<' :: '/' :: (nm ++ ['>']))

def fixXMLorHTML (input : String) : String :=
  ⟨fixXMLorHTMLCore true defaultVoidTags input.data⟩

/-! ## `fixUnclosed` -/

def isLikelyJSONL (l : List Char) : Bool :=
  let s := l.dropWhile jsWs
  if s = [] then false
  else if s.head? = some '{' || s.head? = some '[' then true
  else occursL ":\x7b".data s || occursL "\":[".data s || occursL "\"type\"".data s

inductive FixMode where
  | auto : FixMode
  | json : FixMode
  | xml : FixMode

def fixUnclosedL (input : List Char) (mode : FixMode) (html : Bool)
    (voids : List (List Char)) : List Char :=
  match mode with
  | .json => fixJSONL input
  | .auto =>
    if isLikelyJSONL input then fixJSONL input
    else fixXMLorHTMLCore html voids input
  | .xml => fixXMLorHTMLCore html voids input

/-! ## Model of `JSON.stringify(v, null, 2)`

Fuel-indexed so that it reduces in the kernel; every recursive call
descends into the value, so fuel beyond the total number of nodes and
list elements is never consumed.  Values produced by `jsonParseL l`
have at most `l.length + 1` nodes, so the fuel supplied at the call
sites below always suffices. -/

def indL (k : Nat) : List Char := List.replicate (2 * k) ' '

mutual

def sJValF : Nat → Nat → JVal → List Char
  | 0, _, _ => []
  | _ + 1, _, .jnull => "null".data
  | _ + 1, _, .jbool true => "true".data
  | _ + 1, _, .jbool false => "false".data
  | _ + 1, _, .jnum lex => lex
  | _ + 1, _, .jstr s => '"' :: (s ++ ['"'])
  | _ + 1, _, .jarr [] => "[]".data
  | n + 1, k, .jarr (v :: vs) =>
    '[' :: '\n' :: (sItemsF n (k + 1) (v :: vs) ++ '\n' :: (indL k ++ [']']))
  | _ + 1, _, .jobj [] => ['{', '}']
  | n + 1, k, .jobj (m :: ms) =>
    '{' :: '\n' :: (sMembsF n (k + 1) (m :: ms) ++ '\n' :: (indL k ++ ['}']))

def sItemsF : Nat → Nat → List JVal → List Char
  | 0, _, _ => []
  | _ + 1, _, [] => []
  | n + 1, k, [v] => indL k ++ sJValF n k v
  | n + 1, k, v :: vs =>
    indL k ++ (sJValF n k v ++ ',' :: '\n' :: sItemsF n k vs)

def sMembsF : Nat → Nat → List (List Char × JVal) → List Char
  | 0, _, _ => []
  | _ + 1, _, [] => []
  | n + 1, k, [(key, v)] =>
    indL k ++ '"' :: (key ++ '"' :: ':' :: ' ' :: sJValF n k v)
  | n + 1, k, (key, v) :: ms =>
    indL k ++ '"' :: (key ++ '"' :: ':' :: ' ' ::
      (sJValF n k v ++ ',' :: '\n' :: sMembsF n k ms))

end

/-! ## `ensureExcalidrawArray` -/

def lookupLast (ms : List (List Char × JVal)) (k : List Char) : Option JVal :=
  (ms.reverse.find? (fun m => m.1 == k)).map (fun m => m.2)

/-- The greedy regex `/\[[\s\S]*\]/`: first `[` through the last `]`. -/
def innerArrM (l : List Char) : Option (List Char) :=
  match l.findIdx? (fun c => c = '['), lastIdxOf ']' l with
  | some a, some b => if a < b then some (sliceL l a (b + 1)) else none
  | some _, none => none
  | none, _ => none

def ensureExcalidrawArrayCore (code : List Char) : List Char :=
  let trimmed := jsTrimL code
  if trimmed = [] then trimmed
  else
    let fuel := 2 * trimmed.length + 8
    if trimmed.head? = some '[' ∧ trimmed.getLast? = some ']' then
      match jsonParseL trimmed with
      | some (.jarr a) => sJValF fuel 0 (.jarr a)
      | some _ => trimmed
      | none => trimmed
    else
      match jsonParseL trimmed with
      | some (.jarr a) => sJValF fuel 0 (.jarr a)
      | some (.jobj ms) =>
        match lookupLast ms "elements".data with
        | some (.jarr a) => sJValF fuel 0 (.jarr a)
        | _ =>
          match lookupLast ms "items".data with
          | some (.jarr a) => sJValF fuel 0 (.jarr a)
          | _ => sJValF fuel 0 (.jarr [.jobj ms])
      | some v => sJValF fuel 0 (.jarr [v])
      | none =>
        match jsonParseL ('[' :: (trimmed ++ [']'])) with
        | some (.jarr a) => sJValF (2 * trimmed.length + 12) 0 (.jarr a)
        | _ =>
          match innerArrM trimmed with
          | some inner =>
            match jsonParseL inner with
            | some (.jarr a) => sJValF fuel 0 (.jarr a)
            | _ => trimmed
          | none => trimmed

/-! ## The exported pipeline steps

A step receives an arbitrary JavaScript value; every exported step
starts with `if (!code || typeof code !== 'string') return code;`.
`JsVal.jother g` stands for any non-string value (all of which that
guard returns unchanged); for strings, `!code` is the emptiness test. -/

inductive JsVal where
  | jstr : String → JsVal
  | jother : Nat → JsVal
deriving DecidableEq

def guardStr (f : String → String) : JsVal → JsVal
  | .jother g => .jother g
  | .jstr s => if s.isEmpty then .jstr s else .jstr (f s)

def cleanBOM : JsVal → JsVal := guardStr (fun s => ⟨cleanBOMCore s.data⟩)

def extractCodeFence (code : JsVal) (lang : Option String) : JsVal :=
  guardStr
    (fun s => ⟨extractFenceL s.data
      (match lang with
       | some lg => if lg.isEmpty then none else some lg.data
       | none => none)⟩)
    code

def unescapeHTML : JsVal → JsVal := guardStr (fun s => ⟨unescapeCore s.data⟩)

def extractXML : JsVal → JsVal := guardStr (fun s => ⟨extractXMLCore s.data⟩)

def normalizeMxTags : JsVal → JsVal := guardStr (fun s => ⟨normalizeMxCore s.data⟩)

def extractJSON : JsVal → JsVal := guardStr (fun s => ⟨extractJSONCore s.data⟩)

def extractJSONArrayStrict : JsVal → JsVal :=
  guardStr (fun s => ⟨extractJSONArrayStrictCore s.data⟩)

def repairJSON : JsVal → JsVal := guardStr fixJSON

def fixXML : JsVal → JsVal :=
  guardStr (fun s => ⟨fixUnclosedL s.data .xml true defaultVoidTags⟩)

/-- Modelled from the spec: the geometry post-processing hook
`optimizeExcalidrawCode` (src/lib/optimizeArrows.js is not among the
sources; per the spec it is "a single external function accepting
already-valid array-of-elements JSON text and returning text of the
same shape; if unavailable, the step is a no-op passthrough").  The
step is therefore parameterised by the hook, `none` standing for a
falsy `optimizeExcalidrawCode`. -/
def optimizeArrows (hook : Option (String → String)) : JsVal → JsVal :=
  guardStr (fun s =>
    match hook with
    | some f => f s
    | none => s)

def ensureExcalidrawArray : JsVal → JsVal :=
  guardStr (fun s => ⟨ensureExcalidrawArrayCore s.data⟩)

/-! ## Predicates used in theorem statements -/

/-- `extractJSON`'s array-branch condition: a first `[` and a last `]`
exist and the first `[` precedes the first `{` (or no `{` exists). -/
def arrBranch (l : List Char) : Prop :=
  ∃ a e, l.findIdx? (fun c => c = '[') = some a ∧ lastIdxOf ']' l = some e ∧
    (l.findIdx? (fun c => c = '{') = none ∨
     ∃ o, l.findIdx? (fun c => c = '{') = some o ∧ a < o)

/-- The state of `fixJSONStructure`'s scan at end of text (after the
comma-insertion pre-pass and invisible-character removal), for a given
raw (trimmed) input. -/
def scanEnd (raw : List Char) : JState :=
  runScan (addMissingCommasL (rmInvis raw))

/-- Hypothesis of the amended C3: the repair scan does not end inside a
string literal right after an unconsumed backslash.  (When it does, the
closing quote appended by the repair is itself escaped, the string stays
unterminated, and closers appended after it land inside the string.) -/
def scanEndOk (raw : List Char) : Prop :=
  (scanEnd raw).inStr = false ∨ (scanEnd raw).esc = false

instance (raw : List Char) : Decidable (scanEndOk raw) := by
  unfold scanEndOk; infer_instance

/-- Invariant of `fixJSONStructure`'s scan: the output's string-scan
state agrees with the loop flags, and each kind of opening delimiter
(counted outside strings) is covered by emitted closers plus pending
stack entries. -/
def ScanInv (s : JState) : Prop :=
  stRun (false, false) s.out = (s.inStr, s.esc) ∧
  cntOut '{' (false, false) s.out
    ≤ cntOut '}' (false, false) s.out + s.stack.count '{' ∧
  cntOut '[' (false, false) s.out
    ≤ cntOut ']' (false, false) s.out + s.stack.count '['

/-- A balanced complete segment: the string scan passes through it and
its outside-string delimiter counts match. -/
def BalL (pre : List Char) : Prop :=
  stRun (false, false) pre = (false, false) ∧
  cntOut '{' (false, false) pre = cntOut '}' (false, false) pre ∧
  cntOut '[' (false, false) pre = cntOut ']' (false, false) pre

/-- `r` is a suffix of `l` whose preceding segment is balanced (what a
successful run of a sub-parser consumes). -/
def PreOk (l r : List Char) : Prop := ∃ pre, l = pre ++ r ∧ BalL pre

/-- A character that is neither a quote nor a brace/bracket: it never
affects string-scan state or delimiter counts. -/
def plainCh (c : Char) : Prop :=
  c ≠ '"' ∧ c ≠ '{' ∧ c ≠ '}' ∧ c ≠ '[' ∧ c ≠ ']'

instance (c : Char) : Decidable (plainCh c) := by
  unfold plainCh; infer_instance

instance (l : List Char) : Decidable (BalL l) := by
  unfold BalL; infer_instance

/-! # Theorems -/

/-! ## Generic lemmas about the string-literal scan -/

theorem stRun_append (st : Bool × Bool) (a b : List Char) :
    stRun st (a ++ b) = stRun (stRun st a) b := by
  induction a generalizing st with
  | nil => rfl
  | cons c a ih => simp [stRun, ih]

theorem cntOut_append (t : Char) (st : Bool × Bool) (a b : List Char) :
    cntOut t st (a ++ b) = cntOut t st a + cntOut t (stRun st a) b := by
  induction a generalizing st with
  | nil => simp [cntOut, stRun]
  | cons c a ih => simp [cntOut, stRun, ih]; omega

theorem inProjSt_append (st : Bool × Bool) (a b : List Char) :
    inProjSt st (a ++ b) = inProjSt st a ++ inProjSt (stRun st a) b := by
  induction a generalizing st with
  | nil => simp [inProjSt, stRun]
  | cons c a ih =>
    by_cases h : st.1 <;> simp [inProjSt, stRun, h, ih]

/-- A character that is not a double quote keeps the whole scan state
fixed when outside a string. -/
theorem strSt_out_of_ne_quote {st : Bool × Bool} {c : Char}
    (h1 : st.1 = false) (hc : c ≠ '"') : strSt st c = st := by
  simp [strSt, h1, hc]

theorem stRun_fst_of_no_quote {l : List Char} (h : ∀ c ∈ l, c ≠ '"') :
    ∀ st : Bool × Bool, (stRun st l).1 = st.1 := by
  induction l with
  | nil => intro st; rfl
  | cons c l ih =>
    intro st
    have hc : c ≠ '"' := h c (List.mem_cons_self ..)
    have hl : ∀ x ∈ l, x ≠ '"' := fun x hx => h x (List.mem_cons_of_mem _ hx)
    by_cases h1 : st.1
    · rcases st with ⟨b1, b2⟩
      simp only at h1; subst h1
      by_cases h2 : b2 <;> by_cases hb : c = '\\' <;>
        simp [stRun, strSt, h2, hb, hc, ih hl]
    · simp only [Bool.not_eq_true] at h1
      rw [stRun, strSt_out_of_ne_quote h1 hc, ih hl, h1]

theorem cntOut_eq_zero_of_not_mem {t : Char} {l : List Char}
    (h : ∀ c ∈ l, c ≠ t) (st : Bool × Bool) : cntOut t st l = 0 := by
  induction l generalizing st with
  | nil => rfl
  | cons c l ih =>
    have hc : c ≠ t := h c (List.mem_cons_self ..)
    simp [cntOut, hc, ih (fun x hx => h x (List.mem_cons_of_mem _ hx))]

theorem cntOut_eq_count_of_out {t : Char} {l : List Char}
    (hq : ∀ c ∈ l, c ≠ '"') :
    ∀ st : Bool × Bool, st.1 = false → cntOut t st l = l.count t := by
  induction l with
  | nil => intro st _; rfl
  | cons c l ih =>
    intro st h1
    have hc : c ≠ '"' := hq c (List.mem_cons_self ..)
    have hl : ∀ x ∈ l, x ≠ '"' := fun x hx => hq x (List.mem_cons_of_mem _ hx)
    rw [cntOut, strSt_out_of_ne_quote h1 hc, ih hl st h1, List.count_cons]
    by_cases he : c = t
    · simp [h1, he]; omega
    · simp [h1, he]

/-! ## C1 -/

/-- C1: `CodeProcessor.process` applies the steps in order, feeding each
step's output to the next; when a step throws, the input that step
received is substituted as its result and the remaining steps still run
(`processSpec` is that behaviour transcribed from the spec).  Since
`process` is total and returns `String`, it never propagates an
exception and always returns a string. -/
theorem c1_pipeline_process (steps : List Step) (code : String) :
    CodeProcessor.process ⟨steps⟩ code = processSpec steps code := by
  induction steps generalizing code with
  | nil => rfl
  | cons s rest ih =>
    show List.foldl _ _ (s :: rest) = _
    rw [List.foldl_cons, processSpec]
    cases h : s code with
    | ok r => simpa [h] using ih r
    | error e => simpa [h] using ih code

/-! ## C2 -/

/-- C2: if the trimmed input parses as valid JSON, `fixJSON` returns
exactly the trimmed input, unchanged; the repair only runs when that
initial parse fails (as is visible from the definition of `fixJSONL`). -/
theorem c2_fixJSON_valid_identity (input : String) (v : JVal)
    (h : jsonParseL (jsTrimL input.data) = some v) :
    fixJSON input = ⟨jsTrimL input.data⟩ := by
  unfold fixJSON fixJSONL
  by_cases h0 : jsTrimL input.data = []
  · rw [h0, show jsonParseL ([] : List Char) = none from rfl] at h
    exact Option.noConfusion h
  · simp [h0, h]

theorem c2_witness :
    fixJSON " \x7b\"a\":1\x7d " = ⟨jsTrimL " \x7b\"a\":1\x7d ".data⟩ :=
  c2_fixJSON_valid_identity _ (.jobj [(['a'], .jnum ['1'])]) rfl

/-! ## C4 -/

theorem dropWhile_head_not {α : Type} {p : α → Bool} {l : List α} {x : α}
    {xs : List α} (h : l.dropWhile p = x :: xs) : p x = false := by
  induction l with
  | nil => exact absurd h (by simp)
  | cons c r ih =>
    rw [List.dropWhile_cons] at h
    by_cases hc : p c
    · exact ih (by simpa [hc] using h)
    · simp only [hc, if_neg] at h
      simp only [Bool.false_eq_true, if_false, List.cons.injEq] at h
      rw [← h.1]
      exact Bool.not_eq_true _ |>.mp hc

theorem popMism_eq (stack : List Char) (need : Char) :
    popMism stack need =
      ((stack.takeWhile (fun c => c != need)).map closerOf,
       stack.dropWhile (fun c => c != need)) := by
  induction stack with
  | nil => rfl
  | cons top r ih =>
    by_cases h : top = need <;>
      simp [popMism, h, List.takeWhile_cons, List.dropWhile_cons, ih]

/-- C4: on a closing delimiter outside a string, the scan pops every
mismatched opener from the stack and emits its corresponding closer
before emitting the current character, then pops the matching opener;
on the claim's input the dangling object is closed with `}` before the
array's `]`. -/
theorem c4_mismatched_closer_recovery :
    (∀ (stk : List Char) (e : Bool) (o : List Char) (la : Option Char),
      scanStep ⟨stk, false, e, o, la⟩ '}' =
        ⟨(stk.dropWhile (fun c => c != '{')).tail, false, e,
         o ++ (stk.takeWhile (fun c => c != '{')).map closerOf ++ ['}'],
         some '}'⟩) ∧
    (∀ (stk : List Char) (e : Bool) (o : List Char) (la : Option Char),
      scanStep ⟨stk, false, e, o, la⟩ ']' =
        ⟨(stk.dropWhile (fun c => c != '[')).tail, false, e,
         o ++ (stk.takeWhile (fun c => c != '[')).map closerOf ++ [']'],
         some ']'⟩) ∧
    fixJSON "[\x7b\"start\":\x7b\"id\":\"a\"\x7d\x7d,\x7b\"start\":\x7b\"id\":\"c\"\x7d]"
      = "[\x7b\"start\":\x7b\"id\":\"a\"\x7d\x7d,\x7b\"start\":\x7b\"id\":\"c\"\x7d\x7d]" := by
  refine ⟨?_, ?_, by decide⟩
  · intro stk e o la
    simp only [scanStep, popMism_eq]
    norm_num
    cases hd : stk.dropWhile (fun c => c != '{') with
    | nil => simp [hd]
    | cons top r =>
      have htop : top = '{' := by simpa using dropWhile_head_not hd
      simp [hd, htop]
  · intro stk e o la
    simp only [scanStep, popMism_eq]
    norm_num
    cases hd : stk.dropWhile (fun c => c != '[') with
    | nil => simp [hd]
    | cons top r =>
      have htop : top = '[' := by simpa using dropWhile_head_not hd
      simp [hd, htop]

/-! ## C6 -/

/-- C6 counterexample: on `<div><p>Hello</div>` the tag repair does not
return the claimed `<div><p>Hello</p></div>`. -/
theorem c6_counterexample :
    fixXMLorHTML "<div><p>Hello</div>" ≠ "<div><p>Hello</p></div>" := by
  decide

/-- C6 amended: on `<div><p>Hello</div>`, the mismatched `</div>` leaves
the tag stack untouched (the documented leniency), so both `p` and `div`
stay open and their closing tags are appended at the very end of the
output — after the existing `</div>` — giving
`<div><p>Hello</div></p></div>`, not an insertion before `</div>`. -/
theorem c6_amended :
    fixXMLorHTML "<div><p>Hello</div>" = "<div><p>Hello</div></p></div>" := by
  decide

/-! ## C7 -/

/-- C7: the strict extractor returns the first complete top-level array
(the claim's scenario input included); when its string-aware depth scan
finds no complete array it falls back to `extractJSON`, which slices
from the first `[` to the last `]` when the first `[` precedes the first
`{` (or no `{` exists), and otherwise from the first `{` to the last
`}`. -/
theorem c7_strict_array_extraction :
    extractJSONArrayStrict (.jstr "prefix text [1,[2,3],4] suffix ]")
      = .jstr "[1,[2,3],4]" ∧
    (∀ l : List Char, strictScan l 0 none 0 false false = none →
      extractJSONArrayStrictCore l = extractJSONCore l) ∧
    (∀ (l : List Char) (a e : Nat),
      l.findIdx? (fun c => c = '[') = some a → lastIdxOf ']' l = some e →
      (l.findIdx? (fun c => c = '{') = none ∨
        ∃ o, l.findIdx? (fun c => c = '{') = some o ∧ a < o) →
      extractJSONCore l = sliceL l a (e + 1)) ∧
    (∀ (l : List Char) (s e : Nat),
      l.findIdx? (fun c => c = '{') = some s → lastIdxOf '}' l = some e →
      ¬ arrBranch l →
      extractJSONCore l = sliceL l s (e + 1)) := by
  refine ⟨by decide, ?_, ?_, ?_⟩
  · intro l h
    unfold extractJSONArrayStrictCore
    rw [h]
  · intro l a e h1 h2 h3
    unfold extractJSONCore
    rw [h1, h2]
    rcases h3 with h3 | ⟨o, ho, hlt⟩
    · simp [h3]
    · simp [ho, hlt]
  · intro l s e h1 h2 hn
    unfold extractJSONCore extractJSONObjCase
    cases ha : l.findIdx? (fun c => c = '[') with
    | none => rw [h1, h2]
    | some a =>
      cases he : lastIdxOf ']' l with
      | none => rw [h1, h2]
      | some e' =>
        rw [h1]
        have hge : ¬ a < s := fun hlt =>
          hn ⟨a, e', ha, he, Or.inr ⟨s, h1, hlt⟩⟩
        simp [hge, h1, h2]

theorem c7_witness :
    extractJSONArrayStrictCore "[1".data = extractJSONCore "[1".data ∧
    extractJSONCore "a[1]b".data = sliceL "a[1]b".data 1 4 ∧
    extractJSONCore "a\x7b1\x7db".data = sliceL "a\x7b1\x7db".data 1 4 := by
  refine ⟨c7_strict_array_extraction.2.1 _ rfl,
    c7_strict_array_extraction.2.2.1 _ 1 3 rfl rfl (Or.inl rfl),
    c7_strict_array_extraction.2.2.2 _ 1 3 rfl rfl ?_⟩
  rintro ⟨a, e, ha, -, -⟩
  rw [show ("a\x7b1\x7db".data.findIdx? (fun c => c = '[')) = none from rfl] at ha
  exact Option.noConfusion ha

/-! ## C8 -/

/-- C8 counterexample: the wrap-and-reparse recovery is *not* attempted
for every unparseable input.  For `[1],[2]` (trimmed form fails to
parse, wrapped form parses as an array) the code takes the
looks-like-array early path and returns the text unchanged instead of
the pretty-printed wrapped array; for a whitespace-only input it
returns the empty string even though the wrapped form parses as an
array. -/
theorem c8_counterexample :
    jsonParseL "[1],[2]".data = none ∧
    jsonParseL "[[1],[2]]".data
      = some (.jarr [.jarr [.jnum ['1']], .jarr [.jnum ['2']]]) ∧
    ensureExcalidrawArray (.jstr "[1],[2]") = .jstr "[1],[2]" ∧
    (∀ a, ensureExcalidrawArray (.jstr "[1],[2]")
      ≠ .jstr ⟨sJValF (2 * "[1],[2]".data.length + 12) 0 (.jarr a)⟩ ∨
      jsonParseL ('[' :: ("[1],[2]".data ++ [']'])) ≠ some (.jarr a)) ∧
    ensureExcalidrawArray (.jstr " ") = .jstr "" ∧
    jsonParseL ('[' :: (jsTrimL " ".data ++ [']'])) = some (.jarr []) := by
  refine ⟨rfl, rfl, rfl, ?_, rfl, rfl⟩
  intro a
  by_cases h : jsonParseL ('[' :: ("[1],[2]".data ++ [']'])) = some (.jarr a)
  · left
    have ha : a = [.jarr [.jnum ['1']], .jarr [.jnum ['2']]] := by
      have : jsonParseL ('[' :: ("[1],[2]".data ++ [']']))
          = some (.jarr [.jarr [.jnum ['1']], .jarr [.jnum ['2']]]) := rfl
      rw [this] at h
      cases h
      rfl
    subst ha
    decide
  · right; exact h

/-- C8 amended: for every input whose trimmed form is nonempty, fails to
parse as JSON, and does *not* both start with `[` and end with `]`,
`ensureExcalidrawArray` wraps the trimmed text in `[`/`]`, and when the
wrapped text parses as an array it returns that array pretty-printed. -/
theorem c8_wrap_recovery (s : String)
    (h0 : jsTrimL s.data ≠ [])
    (h1 : jsonParseL (jsTrimL s.data) = none)
    (h2 : ¬((jsTrimL s.data).head? = some '[' ∧
            (jsTrimL s.data).getLast? = some ']'))
    (a : List JVal)
    (h3 : jsonParseL ('[' :: (jsTrimL s.data ++ [']'])) = some (.jarr a)) :
    ensureExcalidrawArray (.jstr s)
      = .jstr ⟨sJValF (2 * (jsTrimL s.data).length + 12) 0 (.jarr a)⟩ := by
  have hne : ¬ s.isEmpty := by
    intro he
    apply h0
    rw [(String.isEmpty_iff s).mp he]
    rfl
  unfold ensureExcalidrawArray guardStr
  simp only [hne, if_neg, Bool.false_eq_true, if_false]
  unfold ensureExcalidrawArrayCore
  simp only [h0, if_neg, h2, if_false, h1, h3]

theorem c8_witness :
    ensureExcalidrawArray (.jstr "\x7b\"a\":1\x7d,\x7b\"b\":2\x7d")
      = .jstr ⟨sJValF (2 * (jsTrimL "\x7b\"a\":1\x7d,\x7b\"b\":2\x7d".data).length + 12) 0
          (.jarr [.jobj [(['a'], .jnum ['1'])], .jobj [(['b'], .jnum ['2'])]])⟩ :=
  c8_wrap_recovery "\x7b\"a\":1\x7d,\x7b\"b\":2\x7d" (by decide) rfl (by decide) _ rfl

/-! ## C9 -/

theorem guardStr_other (f : String → String) (g : Nat) :
    guardStr f (.jother g) = .jother g := rfl

theorem guardStr_empty (f : String → String) :
    guardStr f (.jstr "") = .jstr "" := rfl

theorem guardStr_str (f : String → String) (s : String) :
    ∃ t, guardStr f (.jstr s) = .jstr t := by
  by_cases h : s.isEmpty
  · exact ⟨s, by simp [guardStr, h]⟩
  · exact ⟨f s, by simp [guardStr, h]⟩

/-- C9: every exported pipeline step returns its input unchanged when
the input is a non-string value or the empty string (the
`!code || typeof code !== 'string'` guard), and maps every string to a
string; each step is a total function in this embedding, so no
exception reaches the caller (for `optimizeArrows` this relies on the
spec's contract that the external hook is a text→text transform). -/
theorem c9_step_boundary_contract :
    (∀ g : Nat,
      cleanBOM (.jother g) = .jother g ∧
      (∀ lang, extractCodeFence (.jother g) lang = .jother g) ∧
      unescapeHTML (.jother g) = .jother g ∧
      extractXML (.jother g) = .jother g ∧
      normalizeMxTags (.jother g) = .jother g ∧
      extractJSON (.jother g) = .jother g ∧
      extractJSONArrayStrict (.jother g) = .jother g ∧
      repairJSON (.jother g) = .jother g ∧
      fixXML (.jother g) = .jother g ∧
      (∀ hook, optimizeArrows hook (.jother g) = .jother g) ∧
      ensureExcalidrawArray (.jother g) = .jother g) ∧
    (cleanBOM (.jstr "") = .jstr "" ∧
      (∀ lang, extractCodeFence (.jstr "") lang = .jstr "") ∧
      unescapeHTML (.jstr "") = .jstr "" ∧
      extractXML (.jstr "") = .jstr "" ∧
      normalizeMxTags (.jstr "") = .jstr "" ∧
      extractJSON (.jstr "") = .jstr "" ∧
      extractJSONArrayStrict (.jstr "") = .jstr "" ∧
      repairJSON (.jstr "") = .jstr "" ∧
      fixXML (.jstr "") = .jstr "" ∧
      (∀ hook, optimizeArrows hook (.jstr "") = .jstr "") ∧
      ensureExcalidrawArray (.jstr "") = .jstr "") ∧
    (∀ s : String,
      (∃ t, cleanBOM (.jstr s) = .jstr t) ∧
      (∀ lang, ∃ t, extractCodeFence (.jstr s) lang = .jstr t) ∧
      (∃ t, unescapeHTML (.jstr s) = .jstr t) ∧
      (∃ t, extractXML (.jstr s) = .jstr t) ∧
      (∃ t, normalizeMxTags (.jstr s) = .jstr t) ∧
      (∃ t, extractJSON (.jstr s) = .jstr t) ∧
      (∃ t, extractJSONArrayStrict (.jstr s) = .jstr t) ∧
      (∃ t, repairJSON (.jstr s) = .jstr t) ∧
      (∃ t, fixXML (.jstr s) = .jstr t) ∧
      (∀ hook, ∃ t, optimizeArrows hook (.jstr s) = .jstr t) ∧
      (∃ t, ensureExcalidrawArray (.jstr s) = .jstr t)) := by
  refine ⟨fun g => ⟨rfl, fun _ => rfl, rfl, rfl, rfl, rfl, rfl, rfl, rfl,
      fun _ => rfl, rfl⟩,
    ⟨rfl, fun _ => rfl, rfl, rfl, rfl, rfl, rfl, rfl, rfl, fun _ => rfl, rfl⟩,
    fun s => ⟨guardStr_str _ s, fun lang => guardStr_str _ s, guardStr_str _ s,
      guardStr_str _ s, guardStr_str _ s, guardStr_str _ s, guardStr_str _ s,
      guardStr_str _ s, guardStr_str _ s, fun hook => guardStr_str _ s,
      guardStr_str _ s⟩⟩

/-! ## C10 -/

/-- C10: when the tagged-fence regex's first match captures an empty
payload (an empty or whitespace-only fenced block), the truthiness test
on the captured group fails and `extractCodeFence` falls through to the
any-fence fallback; on the single empty json-tagged fence the fallback's
non-greedy match captures the tag word itself, so the result is the
string `json`, not the empty payload. -/
theorem c10_empty_fence_falls_through :
    (∀ (l lg : List Char), findTagged lg l = some [] →
      extractFenceL l (some lg) = fenceFallback l) ∧
    extractCodeFence (.jstr "```json\n```") (some "json") = .jstr "json" := by
  constructor
  · intro l lg h
    unfold extractFenceL
    simp [h]
  · decide

theorem c10_witness :
    extractFenceL "```json\n```".data (some "json".data)
      = fenceFallback "```json\n```".data :=
  c10_empty_fence_falls_through.1 _ _ rfl

/-! ## More string-scan lemmas (towards C3 and C5) -/

theorem stRun_id_of_no_quote {l : List Char} (h : ∀ c ∈ l, c ≠ '"') :
    ∀ st : Bool × Bool, st.1 = false → stRun st l = st := by
  induction l with
  | nil => intro st _; rfl
  | cons c r ih =>
    intro st h1
    rw [stRun, strSt_out_of_ne_quote h1 (h c (List.mem_cons_self ..))]
    exact ih (fun x hx => h x (List.mem_cons_of_mem _ hx)) st h1

theorem inProjSt_nil_of_out {l : List Char} (h : ∀ c ∈ l, c ≠ '"') :
    ∀ st : Bool × Bool, st.1 = false → inProjSt st l = [] := by
  induction l with
  | nil => intro st _; rfl
  | cons c r ih =>
    intro st h1
    rw [inProjSt, if_neg (by simp [h1]),
      strSt_out_of_ne_quote h1 (h c (List.mem_cons_self ..))]
    exact ih (fun x hx => h x (List.mem_cons_of_mem _ hx)) st h1

/-- With the first character neither a quote nor a backslash, counting
from (in-string, escape-pending) and from (in-string, no-escape) agree:
both descend to (in-string, no-escape). -/
theorem cntOut_esc_irrel (t c0 : Char) (r : List Char)
    (h1 : c0 ≠ '"') (h2 : c0 ≠ '\\') :
    cntOut t (true, true) (c0 :: r) = cntOut t (true, false) (c0 :: r) := by
  simp [cntOut, strSt, h1, h2]

theorem wsThenCloser_head {l : List Char} (h : wsThenCloser l = true) :
    ∃ c0 r, l = c0 :: r ∧ (jsWs c0 = true ∨ c0 = '}' ∨ c0 = ']') := by
  cases l with
  | nil => exact absurd h (by simp [wsThenCloser])
  | cons c0 r =>
    refine ⟨c0, r, rfl, ?_⟩
    rw [wsThenCloser] at h
    by_cases hw : jsWs c0
    · exact Or.inl hw
    · simp only [hw, if_neg, Bool.false_eq_true, if_false] at h
      rcases Bool.or_eq_true_iff.mp h with h | h
      · exact Or.inr (Or.inl (by simpa using h))
      · exact Or.inr (Or.inr (by simpa using h))

theorem jsWs_ne_quote {c : Char} (h : jsWs c = true) : c ≠ '"' := by
  intro he; subst he; simp [jsWs] at h

theorem jsWs_ne_backslash {c : Char} (h : jsWs c = true) : c ≠ '\\' := by
  intro he; subst he; simp [jsWs] at h

/-- The trailing-comma cleanup pass only deletes commas, so the
outside-string count of any other character is unchanged (deleting a
comma can shift an escape from the comma to a following whitespace or
closer, but never to a quote, so string-literal spans are stable). -/
theorem cntOut_stcAux (t : Char) (ht : t ≠ ',') :
    ∀ (l : List Char) (st : Bool × Bool), cntOut t st (stcAux l) = cntOut t st l := by
  intro l
  induction l with
  | nil => intro st; rfl
  | cons c rest ih =>
    intro st
    rw [stcAux]
    by_cases hc : c = ',' ∧ wsThenCloser rest = true
    · rw [if_pos hc]
      obtain ⟨hc1, hc2⟩ := hc
      subst hc1
      rw [ih st, cntOut, if_neg (fun hh => ht hh.2.symm), Nat.zero_add]
      obtain ⟨c0, r, hrest, hcl⟩ := wsThenCloser_head hc2
      have hq : c0 ≠ '"' := by
        rcases hcl with h | h | h
        · exact jsWs_ne_quote h
        · subst h; decide
        · subst h; decide
      have hb : c0 ≠ '\\' := by
        rcases hcl with h | h | h
        · exact jsWs_ne_backslash h
        · subst h; decide
        · subst h; decide
      rcases st with ⟨s1, s2⟩
      cases s1 with
      | false =>
        have : strSt (false, s2) ',' = (false, s2) := by simp [strSt]
        rw [this]
      | true =>
        cases s2 with
        | false =>
          have : strSt (true, false) ',' = (true, false) := by decide
          rw [this]
        | true =>
          have : strSt (true, true) ',' = (true, false) := by decide
          rw [this, hrest, cntOut_esc_irrel t c0 r hq hb]
    · rw [if_neg hc, cntOut, cntOut, ih]

/-! ## Counting emitted closers -/

theorem stRun_snoc (st : Bool × Bool) (a : List Char) (c : Char) :
    stRun st (a ++ [c]) = strSt (stRun st a) c := by
  rw [stRun_append]; rfl

theorem cntOut_snoc (t : Char) (st : Bool × Bool) (a : List Char) (c : Char) :
    cntOut t st (a ++ [c])
      = cntOut t st a + (if (stRun st a).1 = false ∧ c = t then 1 else 0) := by
  rw [cntOut_append]; simp [cntOut]

theorem closers_no_open (T : List Char) :
    (T.map closerOf).count '{' = 0 ∧ (T.map closerOf).count '[' = 0 := by
  induction T with
  | nil => exact ⟨rfl, rfl⟩
  | cons x r ih =>
    rw [List.map_cons, List.count_cons, List.count_cons]
    by_cases hx : x = '{' <;> simp [closerOf, hx, ih.1, ih.2]

theorem closers_no_quote (T : List Char) : ∀ c ∈ (T.map closerOf), c ≠ '"' := by
  intro c hc
  obtain ⟨x, _, hfx⟩ := List.mem_map.mp hc
  subst hfx
  by_cases hx : x = '{' <;> simp [closerOf, hx]

theorem closers_count_of_no_brace (T : List Char) (hT : ∀ x ∈ T, x ≠ '{') :
    (T.map closerOf).count '}' = 0 ∧ (T.map closerOf).count ']' = T.length := by
  induction T with
  | nil => exact ⟨rfl, rfl⟩
  | cons x r ih =>
    have hx : x ≠ '{' := hT x (List.mem_cons_self ..)
    have ihr := ih (fun y hy => hT y (List.mem_cons_of_mem _ hy))
    rw [List.map_cons, List.count_cons, List.count_cons, List.length_cons]
    simp [closerOf, hx, ihr.1, ihr.2]

theorem closers_count_of_no_brk (T : List Char) (hT : ∀ x ∈ T, x ≠ '[') :
    (T.map closerOf).count '}' = T.count '{' ∧
    (T.map closerOf).count ']' + T.count '{' = T.length := by
  induction T with
  | nil => exact ⟨rfl, rfl⟩
  | cons x r ih =>
    have ihr := ih (fun y hy => hT y (List.mem_cons_of_mem _ hy))
    have i1 := ihr.1
    have i2 := ihr.2
    by_cases hx : x = '{'
    · constructor
      · simp [closerOf, hx, List.count_cons, i1]
      · simp [closerOf, hx, List.count_cons]
        omega
    · constructor
      · simp [closerOf, hx, List.count_cons, i1]
      · simp [closerOf, hx, List.count_cons]
        omega

theorem takeWhile_bne_not_mem {l : List Char} {d : Char} :
    ∀ x ∈ l.takeWhile (fun c => c != d), x ≠ d := by
  intro x hx
  have := List.mem_takeWhile_imp hx
  simpa using this

/-! ## The scan-step invariant -/

theorem scanStep_inv {s : JState} (ch : Char) (h : ScanInv s) :
    ScanInv (scanStep s ch) := by
  obtain ⟨hcoh, hbr, hbk⟩ := h
  rcases s with ⟨stk, i, e, o, la⟩
  simp only at hcoh hbr hbk
  cases i with
  | true =>
    cases e with
    | true =>
      have hred : scanStep ⟨stk, true, true, o, la⟩ ch
          = ⟨stk, true, false, o ++ [ch], la⟩ := by simp [scanStep]
      rw [hred]
      refine ⟨?_, ?_, ?_⟩ <;>
        simp [stRun_snoc, cntOut_snoc, hcoh, strSt, hbr, hbk]
    | false =>
      by_cases hb : ch = '\\'
      · have hred : scanStep ⟨stk, true, false, o, la⟩ ch
            = ⟨stk, true, true, o ++ [ch], la⟩ := by simp [scanStep, hb]
        rw [hred]
        refine ⟨?_, ?_, ?_⟩ <;>
          simp [stRun_snoc, cntOut_snoc, hcoh, strSt, hb, hbr, hbk]
      · by_cases hq : ch = '"'
        · have hred : scanStep ⟨stk, true, false, o, la⟩ ch
              = ⟨stk, false, false, o ++ [ch], la⟩ := by simp [scanStep, hb, hq]
          rw [hred]
          refine ⟨?_, ?_, ?_⟩ <;>
            simp [stRun_snoc, cntOut_snoc, hcoh, strSt, hb, hq, hbr, hbk]
        · have hred : scanStep ⟨stk, true, false, o, la⟩ ch
              = ⟨stk, true, false, o ++ [ch], la⟩ := by simp [scanStep, hb, hq]
          rw [hred]
          refine ⟨?_, ?_, ?_⟩ <;>
            simp [stRun_snoc, cntOut_snoc, hcoh, strSt, hb, hq, hbr, hbk]
  | false =>
    by_cases hq : ch = '"'
    · have hred : scanStep ⟨stk, false, e, o, la⟩ ch
          = ⟨stk, true, false, o ++ [ch], la⟩ := by simp [scanStep, hq]
      rw [hred]
      refine ⟨?_, ?_, ?_⟩ <;>
        simp [stRun_snoc, cntOut_snoc, hcoh, strSt, hq, hbr, hbk]
    · by_cases hop : ch = '{' ∨ ch = '['
      · have hred : scanStep ⟨stk, false, e, o, la⟩ ch
            = ⟨ch :: stk, false, e, o ++ [ch], some ch⟩ := by
          simp [scanStep, hq, hop]
        rw [hred]
        rcases hop with hc | hc <;> subst hc <;>
          refine ⟨?_, ?_, ?_⟩ <;>
            simp [stRun_snoc, cntOut_snoc, hcoh, strSt, List.count_cons,
              hbr, hbk] <;> omega
      · by_cases hcl : ch = '}' ∨ ch = ']'
        · rcases hcl with hc | hc <;> subst hc
          · -- ch = '}', need = '{'
            rw [c4_mismatched_closer_recovery.1 stk e o la]
            have hTmem := takeWhile_bne_not_mem (l := stk) (d := '{')
            have hT0 : (stk.takeWhile (fun c => c != '{')).count '{' = 0 :=
              List.count_eq_zero_of_not_mem (fun hm => hTmem _ hm rfl)
            have hnq : ∀ c ∈ (stk.takeWhile (fun c => c != '{')).map closerOf
                ++ ['}'], c ≠ '"' := by
              intro c hc
              rcases List.mem_append.mp hc with hc | hc
              · exact closers_no_quote _ c hc
              · simp only [List.mem_singleton] at hc; subst hc; decide
            have hcnt : ∀ t : Char, cntOut t (false, false)
                (o ++ (stk.takeWhile (fun c => c != '{')).map closerOf ++ ['}'])
                = cntOut t (false, false) o
                  + ((stk.takeWhile (fun c => c != '{')).map closerOf
                    ++ ['}']).count t := by
              intro t
              rw [List.append_assoc, cntOut_append, hcoh,
                cntOut_eq_count_of_out hnq (false, e) rfl]
            have hc1 := closers_count_of_no_brace _ hTmem
            have hc2 := closers_no_open (stk.takeWhile (fun c => c != '{'))
            have hstkcount : ∀ t : Char,
                stk.count t = (stk.takeWhile (fun c => c != '{')).count t
                  + (stk.dropWhile (fun c => c != '{')).count t := by
              intro t
              conv_lhs => rw [← List.takeWhile_append_dropWhile
                (p := fun c => c != '{') (l := stk)]
              rw [List.count_append]
            refine ⟨?_, ?_, ?_⟩
            · show stRun (false, false)
                (o ++ (stk.takeWhile (fun c => c != '{')).map closerOf ++ ['}'])
                = (false, e)
              rw [List.append_assoc, stRun_append, hcoh]
              exact stRun_id_of_no_quote hnq (false, e) rfl
            · show cntOut '{' _ _ ≤ cntOut '}' _ _ + _
              rw [hcnt '{', hcnt '}', List.count_append, List.count_append,
                hc1.1, hc2.1]
              have hbr2 := hstkcount '{'
              cases hD : stk.dropWhile (fun c => c != '{') with
              | nil =>
                rw [hD] at hbr2
                simp only [List.tail_nil]
                simp at hbr2 ⊢
                omega
              | cons d r =>
                have hd : d = '{' := by
                  have := dropWhile_head_not hD; simpa using this
                subst hd
                rw [hD] at hbr2
                simp only [List.tail_cons]
                simp [List.count_cons] at hbr2 ⊢
                omega
            · show cntOut '[' _ _ ≤ cntOut ']' _ _ + _
              rw [hcnt '[', hcnt ']', List.count_append, List.count_append,
                hc1.2, hc2.2]
              have hbk2 := hstkcount '['
              have hlen : (stk.takeWhile (fun c => c != '{')).count '['
                  ≤ (stk.takeWhile (fun c => c != '{')).length :=
                List.count_le_length ..
              cases hD : stk.dropWhile (fun c => c != '{') with
              | nil =>
                rw [hD] at hbk2
                simp only [List.tail_nil]
                simp at hbk2 ⊢
                omega
              | cons d r =>
                have hd : d = '{' := by
                  have := dropWhile_head_not hD; simpa using this
                subst hd
                rw [hD] at hbk2
                simp only [List.tail_cons]
                simp [List.count_cons] at hbk2 ⊢
                omega
          · -- ch = ']', need = '['
            rw [c4_mismatched_closer_recovery.2.1 stk e o la]
            have hTmem := takeWhile_bne_not_mem (l := stk) (d := '[')
            have hT0 : (stk.takeWhile (fun c => c != '[')).count '[' = 0 :=
              List.count_eq_zero_of_not_mem (fun hm => hTmem _ hm rfl)
            have hnq : ∀ c ∈ (stk.takeWhile (fun c => c != '[')).map closerOf
                ++ [']'], c ≠ '"' := by
              intro c hc
              rcases List.mem_append.mp hc with hc | hc
              · exact closers_no_quote _ c hc
              · simp only [List.mem_singleton] at hc; subst hc; decide
            have hcnt : ∀ t : Char, cntOut t (false, false)
                (o ++ (stk.takeWhile (fun c => c != '[')).map closerOf ++ [']'])
                = cntOut t (false, false) o
                  + ((stk.takeWhile (fun c => c != '[')).map closerOf
                    ++ [']']).count t := by
              intro t
              rw [List.append_assoc, cntOut_append, hcoh,
                cntOut_eq_count_of_out hnq (false, e) rfl]
            have hc1 := closers_count_of_no_brk _ hTmem
            have hc2 := closers_no_open (stk.takeWhile (fun c => c != '['))
            have hstkcount : ∀ t : Char,
                stk.count t = (stk.takeWhile (fun c => c != '[')).count t
                  + (stk.dropWhile (fun c => c != '[')).count t := by
              intro t
              conv_lhs => rw [← List.takeWhile_append_dropWhile
                (p := fun c => c != '[') (l := stk)]
              rw [List.count_append]
            refine ⟨?_, ?_, ?_⟩
            · show stRun (false, false)
                (o ++ (stk.takeWhile (fun c => c != '[')).map closerOf ++ [']'])
                = (false, e)
              rw [List.append_assoc, stRun_append, hcoh]
              exact stRun_id_of_no_quote hnq (false, e) rfl
            · show cntOut '{' _ _ ≤ cntOut '}' _ _ + _
              rw [hcnt '{', hcnt '}', List.count_append, List.count_append,
                hc1.1, hc2.1]
              have hbr2 := hstkcount '{'
              cases hD : stk.dropWhile (fun c => c != '[') with
              | nil =>
                rw [hD] at hbr2
                simp only [List.tail_nil]
                simp at hbr2 ⊢
                omega
              | cons d r =>
                have hd : d = '[' := by
                  have := dropWhile_head_not hD; simpa using this
                subst hd
                rw [hD] at hbr2
                simp only [List.tail_cons]
                simp [List.count_cons] at hbr2 ⊢
                omega
            · show cntOut '[' _ _ ≤ cntOut ']' _ _ + _
              rw [hcnt '[', hcnt ']', List.count_append, List.count_append,
                hc2.2]
              have hbk2 := hstkcount '['
              have hc12 := hc1.2
              cases hD : stk.dropWhile (fun c => c != '[') with
              | nil =>
                rw [hD] at hbk2
                simp only [List.tail_nil]
                simp at hbk2 ⊢
                omega
              | cons d r =>
                have hd : d = '[' := by
                  have := dropWhile_head_not hD; simpa using this
                subst hd
                rw [hD] at hbk2
                simp only [List.tail_cons]
                simp [List.count_cons] at hbk2 ⊢
                omega
        · have hred : scanStep ⟨stk, false, e, o, la⟩ ch
              = ⟨stk, false, e, o ++ [ch],
                 if jsWs ch then la else some ch⟩ := by
            simp [scanStep, hq, hop, hcl]
          rw [hred]
          have hne : ∀ t : Char, t = '{' ∨ t = '}' ∨ t = '[' ∨ t = ']' →
              ch ≠ t := by
            rintro t (ht | ht | ht | ht) <;> subst ht
            · exact fun hh => hop (Or.inl hh)
            · exact fun hh => hcl (Or.inl hh)
            · exact fun hh => hop (Or.inr hh)
            · exact fun hh => hcl (Or.inr hh)
          refine ⟨?_, ?_, ?_⟩
          · rw [stRun_snoc, hcoh, strSt_out_of_ne_quote rfl hq]
          · rw [cntOut_snoc, cntOut_snoc, hcoh]
            simp only [hne '{' (by simp), hne '}' (by simp), and_false,
              if_false]
            omega
          · rw [cntOut_snoc, cntOut_snoc, hcoh]
            simp only [hne '[' (by simp), hne ']' (by simp), and_false,
              if_false]
            omega

theorem foldl_scan_inv : ∀ (l : List Char) (s : JState),
    ScanInv s → ScanInv (l.foldl scanStep s)
  | [], _, h => h
  | c :: l, s, h => foldl_scan_inv l (scanStep s c) (scanStep_inv c h)

theorem initJState_inv : ScanInv initJState :=
  ⟨rfl, Nat.le_refl 0, Nat.le_refl 0⟩

theorem runScan_inv (text : List Char) : ScanInv (runScan text) :=
  foldl_scan_inv text initJState initJState_inv

/-- The output field of one scan step: the consumed character is always
copied; on a closing delimiter outside a string the while-loop closers
are emitted first. -/
theorem scanStep_out (s : JState) (ch : Char) :
    (scanStep s ch).out = s.out ++
      (if s.inStr = false ∧ (ch = '}' ∨ ch = ']') then
        (popMism s.stack (if ch = '}' then '{' else '[')).1 ++ [ch]
      else [ch]) := by
  rcases s with ⟨stk, i, e, o, la⟩
  cases i with
  | true =>
    cases e with
    | true => simp [scanStep]
    | false =>
      by_cases hb : ch = '\\'
      · simp [scanStep, hb]
      · by_cases hq : ch = '"' <;> simp [scanStep, hb, hq]
  | false =>
    by_cases hq : ch = '"'
    · simp [scanStep, hq]
    · by_cases hop : ch = '{' ∨ ch = '['
      · rcases hop with h | h <;> subst h <;> simp [scanStep, hq]
      · by_cases hcl : ch = '}' ∨ ch = ']'
        · rcases hcl with h | h <;> subst h <;> simp [scanStep, hq]
        · simp [scanStep, hq, hop, hcl]

/-- The flag fields of one scan step follow the string-literal state
machine `strSt`. -/
theorem scanStep_flags (s : JState) (ch : Char) :
    ((scanStep s ch).inStr, (scanStep s ch).esc) = strSt (s.inStr, s.esc) ch := by
  rcases s with ⟨stk, i, e, o, la⟩
  cases i with
  | true =>
    cases e with
    | true => simp [scanStep, strSt]
    | false =>
      by_cases hb : ch = '\\'
      · simp [scanStep, strSt, hb]
      · by_cases hq : ch = '"' <;> simp [scanStep, strSt, hb, hq]
  | false =>
    by_cases hq : ch = '"'
    · simp [scanStep, strSt, hq]
    · by_cases hop : ch = '{' ∨ ch = '['
      · rcases hop with h | h <;> subst h <;> simp [scanStep, strSt, hq]
      · by_cases hcl : ch = '}' ∨ ch = ']'
        · rcases hcl with h | h <;> subst h <;> simp [scanStep, strSt, hq]
        · simp [scanStep, strSt, hq, hop, hcl]

theorem scanStep_proj {s : JState} (ch : Char)
    (hcoh : stRun (false, false) s.out = (s.inStr, s.esc)) :
    inProjSt (false, false) (scanStep s ch).out
      = inProjSt (false, false) s.out ++ inProjSt (s.inStr, s.esc) [ch] := by
  rw [scanStep_out, inProjSt_append, hcoh]
  congr 1
  by_cases hc : s.inStr = false ∧ (ch = '}' ∨ ch = ']')
  · rw [if_pos hc]
    have hnq : ∀ c ∈ (popMism s.stack (if ch = '}' then '{' else '[')).1
        ++ [ch], c ≠ '"' := by
      intro c hcm
      rcases List.mem_append.mp hcm with hm | hm
      · rw [popMism_eq] at hm
        exact closers_no_quote _ c hm
      · simp only [List.mem_singleton] at hm; subst hm
        rcases hc.2 with h | h <;> subst h <;> decide
    rw [inProjSt_nil_of_out hnq _ hc.1, inProjSt, if_neg (by simp [hc.1]),
      inProjSt]
  · rw [if_neg hc]

theorem foldl_scan_proj : ∀ (l : List Char) (s : JState), ScanInv s →
    inProjSt (false, false) (l.foldl scanStep s).out
      = inProjSt (false, false) s.out ++ inProjSt (s.inStr, s.esc) l := by
  intro l
  induction l with
  | nil => intro s _; simp [inProjSt]
  | cons c l ih =>
    intro s h
    rw [List.foldl_cons, ih _ (scanStep_inv c h), scanStep_proj c h.1,
      List.append_assoc]
    congr 1
    have hf := scanStep_flags s c
    rw [hf]
    by_cases h1 : s.inStr <;> simp [inProjSt, h1]

/-! ## C5 -/

/-- C5 counterexample: the full repair is *not* verbatim on string
literals.  On `["a,]"` (an unclosed array whose string contains `,]`),
the trailing-comma cleanup regex — which is not string-aware — deletes
the comma inside the string literal: the output is `["a]"]`, and the
sequence of characters lying inside string literals changes. -/
theorem c5_counterexample :
    fixJSON "[\"a,]\"" = "[\"a]\"]" ∧
    inProjSt (false, false) (fixJSON "[\"a,]\"").data
      ≠ inProjSt (false, false) "[\"a,]\"".data := by
  constructor
  · decide
  · decide

/-- C5 amended: the invariant holds for the structural scan itself
(`fixJSONStructure`'s character loop): every character observed while
inside-string is true is copied verbatim, in order, and never
interpreted structurally — the in-string projection of the scan's
output equals that of its input.  The regex pre-pass
(`addMissingCommas`) and the cleanup pass (`stripTrailingCommas`) are
not string-aware and may insert or delete commas inside string
literals (see the counterexample). -/
theorem c5_scan_copies_strings_verbatim (text : List Char) :
    inProjSt (false, false) (runScan text).out
      = inProjSt (false, false) text := by
  have h := foldl_scan_proj text initJState initJState_inv
  simpa [initJState, inProjSt, runScan] using h

/-! ## Counts through the tail of `fixJSONStructure` (towards C3) -/

theorem jsWs_ne_special {c : Char} (h : jsWs c = true) :
    c ≠ '{' ∧ c ≠ '}' ∧ c ≠ '[' ∧ c ≠ ']' ∧ c ≠ '"' := by
  refine ⟨?_, ?_, ?_, ?_, ?_⟩ <;> (intro he; subst he; simp [jsWs] at h)

theorem jsTrimEndL_spec (l : List Char) :
    ∃ d, l = jsTrimEndL l ++ d ∧ ∀ c ∈ d, jsWs c = true := by
  refine ⟨(l.reverse.takeWhile jsWs).reverse, ?_, ?_⟩
  · unfold jsTrimEndL
    conv_lhs => rw [← List.reverse_reverse l,
      ← List.takeWhile_append_dropWhile (p := jsWs) (l := l.reverse)]
    rw [List.reverse_append]
  · intro c hc
    rw [List.mem_reverse] at hc
    exact List.mem_takeWhile_imp hc

theorem closers_count_cbrace (S : List Char) :
    (S.map closerOf).count '}' = S.count '{' := by
  induction S with
  | nil => rfl
  | cons x r ih =>
    by_cases hx : x = '{' <;> simp [closerOf, hx, List.count_cons, ih]

theorem closers_count_cbrk (S : List Char) :
    S.count '[' ≤ (S.map closerOf).count ']' := by
  induction S with
  | nil => exact Nat.le_refl 0
  | cons x r ih =>
    by_cases hx : x = '{'
    · simp [closerOf, hx, List.count_cons]
      omega
    · simp [closerOf, hx, List.count_cons]
      by_cases hb : x = '[' <;> simp [hb] <;> omega

/-- The character suffix dropped between the scan output and the
closing-bracket append: trailing whitespace and possibly one comma. -/
theorem fixTail_decomp (r1 : List Char) (la : Option Char) :
    ∃ d, r1 = (if la = some ',' then
        (if (jsTrimEndL r1).getLast? = some ',' then (jsTrimEndL r1).dropLast
         else jsTrimEndL r1)
      else r1) ++ d ∧
      ∀ c ∈ d, c ≠ '{' ∧ c ≠ '}' ∧ c ≠ '[' ∧ c ≠ ']' ∧ c ≠ '"' := by
  by_cases hla : la = some ','
  · obtain ⟨d1, hd1, hws⟩ := jsTrimEndL_spec r1
    by_cases hg : (jsTrimEndL r1).getLast? = some ','
    · obtain ⟨ys, hys⟩ := List.getLast?_eq_some_iff.mp hg
      refine ⟨[','] ++ d1, ?_, ?_⟩
      · rw [if_pos hla, if_pos hg, hys, List.dropLast_concat,
          ← List.append_assoc]
        rw [hys] at hd1
        exact hd1
      · intro c hc
        rcases List.mem_append.mp hc with hc | hc
        · simp only [List.mem_singleton] at hc; subst hc
          refine ⟨?_, ?_, ?_, ?_, ?_⟩ <;> decide
        · exact jsWs_ne_special (hws c hc)
    · exact ⟨d1, by rw [if_pos hla, if_neg hg]; exact hd1,
        fun c hc => jsWs_ne_special (hws c hc)⟩
  · exact ⟨[], by rw [if_neg hla, List.append_nil], by simp⟩

/-- The bracket-count inequalities of the amended C3, at the level of
`fixJSONStructure`. -/
theorem fixJSONStructureL_counts (raw : List Char) (h : scanEndOk raw) :
    cntOut '{' (false, false) (fixJSONStructureL raw)
      ≤ cntOut '}' (false, false) (fixJSONStructureL raw) ∧
    cntOut '[' (false, false) (fixJSONStructureL raw)
      ≤ cntOut ']' (false, false) (fixJSONStructureL raw) := by
  obtain ⟨hcoh, hbr, hbk⟩ := runScan_inv (addMissingCommasL (rmInvis raw))
  unfold scanEndOk scanEnd at h
  set F := runScan (addMissingCommasL (rmInvis raw)) with hFdef
  set r1 := if F.inStr then F.out ++ ['"'] else F.out with hr1
  set la := (if F.inStr then some '"' else F.last : Option Char) with hla
  set r2 := (if la = some ',' then
      (if (jsTrimEndL r1).getLast? = some ',' then (jsTrimEndL r1).dropLast
       else jsTrimEndL r1)
    else r1) with hr2
  set r3 := r2 ++ F.stack.map closerOf with hr3
  have hout : fixJSONStructureL raw = stripTrailingCommasL r3 := rfl
  -- counts of r1 agree with the scan output on the four delimiters
  have hcnt1 : ∀ t : Char, t ≠ '"' →
      cntOut t (false, false) r1 = cntOut t (false, false) F.out := by
    intro t ht
    rw [hr1]
    by_cases hi : F.inStr
    · rw [if_pos hi, cntOut_snoc, hcoh]
      simp [hi]
    · rw [if_neg hi]
  -- the string-scan state after r1 is outside-string (uses the C3 hypothesis)
  have hst1 : (stRun (false, false) r1).1 = false := by
    rw [hr1]
    by_cases hi : F.inStr
    · have hesc : F.esc = false := by
        rcases h with h | h
        · rw [h] at hi; exact absurd hi (by simp)
        · exact h
      rw [if_pos hi, stRun_snoc, hcoh, hi, hesc]
      rfl
    · rw [if_neg hi, hcoh]
      simpa using hi
  -- r2 is r1 minus a dropped suffix of whitespace and a comma
  obtain ⟨d, hd, hdne⟩ := fixTail_decomp r1 la
  rw [← hr2] at hd
  have hcnt2 : ∀ t : Char, t = '{' ∨ t = '}' ∨ t = '[' ∨ t = ']' →
      cntOut t (false, false) r2 = cntOut t (false, false) r1 := by
    intro t ht
    rw [hd, cntOut_append]
    have hz : cntOut t (stRun (false, false) r2) d = 0 := by
      refine cntOut_eq_zero_of_not_mem ?_ _
      intro c hc
      rcases ht with ht | ht | ht | ht <;> subst ht
      · exact (hdne c hc).1
      · exact (hdne c hc).2.1
      · exact (hdne c hc).2.2.1
      · exact (hdne c hc).2.2.2.1
    omega
  have hst2 : (stRun (false, false) r2).1 = false := by
    have := hst1
    rw [hd, stRun_append] at this
    rw [stRun_fst_of_no_quote (fun c hc => (hdne c hc).2.2.2.2)] at this
    exact this
  -- counts of r3
  have hcnt3 : ∀ t : Char,
      cntOut t (false, false) r3
        = cntOut t (false, false) r2 + (F.stack.map closerOf).count t := by
    intro t
    rw [hr3, cntOut_append,
      cntOut_eq_count_of_out (closers_no_quote F.stack) _ hst2]
  have hstrip : ∀ t : Char, t ≠ ',' →
      cntOut t (false, false) (stripTrailingCommasL r3)
        = cntOut t (false, false) r3 :=
    fun t ht => cntOut_stcAux t ht r3 (false, false)
  rw [hout]
  constructor
  · rw [hstrip '{' (by decide), hstrip '}' (by decide), hcnt3, hcnt3,
      hcnt2 '{' (by simp), hcnt2 '}' (by simp),
      hcnt1 '{' (by decide), hcnt1 '}' (by decide),
      (closers_no_open F.stack).1, closers_count_cbrace]
    omega
  · rw [hstrip '[' (by decide), hstrip ']' (by decide), hcnt3, hcnt3,
      hcnt2 '[' (by simp), hcnt2 ']' (by simp),
      hcnt1 '[' (by decide), hcnt1 ']' (by decide),
      (closers_no_open F.stack).2]
    have := closers_count_cbrk F.stack
    omega

/-! ## Balanced segments of successful parses (towards C3) -/

theorem balL_nil : BalL [] := ⟨rfl, rfl, rfl⟩

theorem balL_append {a b : List Char} (ha : BalL a) (hb : BalL b) :
    BalL (a ++ b) := by
  obtain ⟨ha1, ha2, ha3⟩ := ha
  obtain ⟨hb1, hb2, hb3⟩ := hb
  refine ⟨?_, ?_, ?_⟩
  · rw [stRun_append, ha1, hb1]
  · rw [cntOut_append, cntOut_append, ha1, ha2, hb2]
  · rw [cntOut_append, cntOut_append, ha1, ha3, hb3]

theorem balL_of_plain {l : List Char} (h : ∀ c ∈ l, plainCh c) : BalL l := by
  have hq : ∀ c ∈ l, c ≠ '"' := fun c hc => (h c hc).1
  refine ⟨stRun_id_of_no_quote hq _ rfl, ?_, ?_⟩
  · rw [cntOut_eq_zero_of_not_mem (fun c hc => (h c hc).2.1),
      cntOut_eq_zero_of_not_mem (fun c hc => (h c hc).2.2.1)]
  · rw [cntOut_eq_zero_of_not_mem (fun c hc => (h c hc).2.2.2.1),
      cntOut_eq_zero_of_not_mem (fun c hc => (h c hc).2.2.2.2)]

theorem preOk_refl (l : List Char) : PreOk l l := ⟨[], rfl, balL_nil⟩

theorem preOk_trans {a b c : List Char} (h1 : PreOk a b) (h2 : PreOk b c) :
    PreOk a c := by
  obtain ⟨p1, hp1, hb1⟩ := h1
  obtain ⟨p2, hp2, hb2⟩ := h2
  exact ⟨p1 ++ p2, by rw [hp1, hp2, List.append_assoc], balL_append hb1 hb2⟩

theorem skipWsJ_spec (l : List Char) :
    ∃ w, l = w ++ skipWsJ l ∧ ∀ c ∈ w, jsonWsCh c = true := by
  induction l with
  | nil => exact ⟨[], rfl, by simp⟩
  | cons c r ih =>
    by_cases hc : jsonWsCh c
    · obtain ⟨w, hw, hws⟩ := ih
      refine ⟨c :: w, ?_, ?_⟩
      · rw [skipWsJ, if_pos hc, List.cons_append, ← hw]
      · intro x hx
        rcases List.mem_cons.mp hx with hx | hx
        · subst hx; exact hc
        · exact hws x hx
    · exact ⟨[], by rw [skipWsJ, if_neg hc]; rfl, by simp⟩

theorem jsonWsCh_plain {c : Char} (h : jsonWsCh c = true) : plainCh c := by
  refine ⟨?_, ?_, ?_, ?_, ?_⟩ <;> (intro he; subst he; simp [jsonWsCh] at h)

theorem preOk_skipWs (l : List Char) : PreOk l (skipWsJ l) := by
  obtain ⟨w, hw, hws⟩ := skipWsJ_spec l
  exact ⟨w, hw, balL_of_plain (fun c hc => jsonWsCh_plain (hws c hc))⟩

theorem preOk_cons_plain {c : Char} {r : List Char} (h : plainCh c) :
    PreOk (c :: r) r :=
  ⟨[c], rfl, balL_of_plain (by
    intro x hx
    rw [List.mem_singleton] at hx
    subst hx
    exact h)⟩

theorem strSt_in_plain {c : Char} (hb : c ≠ '\\') (hq : c ≠ '"') :
    strSt (true, false) c = (true, false) := by
  simp [strSt, hb, hq]

theorem pStrBody_spec : ∀ (n : Nat) (l : List Char), l.length ≤ n →
    ∀ s r, pStrBody l = some (s, r) →
    l = s ++ '"' :: r ∧ stRun (true, false) s = (true, false) ∧
    ∀ t, cntOut t (true, false) s = 0 := by
  intro n
  induction n with
  | zero =>
    intro l hl s r h
    rw [List.length_eq_zero.mp (Nat.le_zero.mp hl)] at h
    simp [pStrBody] at h
  | succ n ih =>
    intro l hl s r h
    cases l with
    | nil => simp [pStrBody] at h
    | cons c rest =>
      rw [pStrBody.eq_def] at h
      simp only [] at h
      by_cases hq : c = '"'
      · rw [if_pos hq] at h
        simp only [Option.some.injEq, Prod.mk.injEq] at h
        subst hq
        rw [← h.1, ← h.2]
        exact ⟨rfl, rfl, fun t => rfl⟩
      · rw [if_neg hq] at h
        by_cases hb : c = '\\'
        · rw [if_pos hb] at h
          subst hb
          split at h
          · exact absurd h (by simp)
          · -- unicode escape
            rename_i h1 h2 h3 h4 rest3
            split at h
            · rename_i hhex
              cases hsb : pStrBody rest3 with
              | none => rw [hsb] at h; exact absurd h (by simp)
              | some pr =>
                obtain ⟨s3, r3⟩ := pr
                rw [hsb] at h
                simp only [Option.some.injEq, Prod.mk.injEq] at h
                have hlen : rest3.length ≤ n := by
                  simp only [List.length_cons] at hl
                  omega
                obtain ⟨he, hst, hcnt⟩ := ih rest3 hlen s3 r3 hsb
                rw [← h.1, ← h.2]
                simp only [Bool.and_eq_true] at hhex
                have hx1 : h1 ≠ '\\' ∧ h1 ≠ '"' := by
                  constructor <;>
                    (intro hx; rw [hx] at hhex; exact absurd hhex.1.1.1 (by decide))
                have hx2 : h2 ≠ '\\' ∧ h2 ≠ '"' := by
                  constructor <;>
                    (intro hx; rw [hx] at hhex; exact absurd hhex.1.1.2 (by decide))
                have hx3 : h3 ≠ '\\' ∧ h3 ≠ '"' := by
                  constructor <;>
                    (intro hx; rw [hx] at hhex; exact absurd hhex.1.2 (by decide))
                have hx4 : h4 ≠ '\\' ∧ h4 ≠ '"' := by
                  constructor <;>
                    (intro hx; rw [hx] at hhex; exact absurd hhex.2 (by decide))
                have e1 : strSt (true, false) '\\' = (true, true) := rfl
                have e2 : strSt (true, true) 'u' = (true, false) := rfl
                refine ⟨by rw [he]; rfl, ?_, ?_⟩
                · show stRun (true, false)
                    ('\\' :: 'u' :: h1 :: h2 :: h3 :: h4 :: s3) = (true, false)
                  simp only [stRun, e1, e2, strSt_in_plain hx1.1 hx1.2,
                    strSt_in_plain hx2.1 hx2.2, strSt_in_plain hx3.1 hx3.2,
                    strSt_in_plain hx4.1 hx4.2]
                  exact hst
                · intro t
                  show cntOut t (true, false)
                    ('\\' :: 'u' :: h1 :: h2 :: h3 :: h4 :: s3) = 0
                  simp only [cntOut, e1, e2, strSt_in_plain hx1.1 hx1.2,
                    strSt_in_plain hx2.1 hx2.2, strSt_in_plain hx3.1 hx3.2,
                    strSt_in_plain hx4.1 hx4.2, hcnt t]
                  simp
            · exact absurd h (by simp)
          · -- simple escape
            rename_i e rest2 hne
            split at h
            · rename_i hesc
              cases hsb : pStrBody rest2 with
              | none => rw [hsb] at h; exact absurd h (by simp)
              | some pr =>
                obtain ⟨s2, r2⟩ := pr
                rw [hsb] at h
                simp only [Option.some.injEq, Prod.mk.injEq] at h
                have hlen : rest2.length ≤ n := by
                  simp only [List.length_cons] at hl
                  omega
                obtain ⟨he, hst, hcnt⟩ := ih rest2 hlen s2 r2 hsb
                rw [← h.1, ← h.2]
                refine ⟨by rw [he]; rfl, ?_, ?_⟩
                · show stRun (true, false) ('\\' :: e :: s2) = (true, false)
                  rw [show stRun (true, false) ('\\' :: e :: s2)
                      = stRun (strSt (strSt (true, false) '\\') e) s2 from rfl]
                  rw [show strSt (strSt (true, false) '\\') e
                      = (true, false) from by simp [strSt]]
                  exact hst
                · intro t
                  show cntOut t (true, false) ('\\' :: e :: s2) = 0
                  rw [show cntOut t (true, false) ('\\' :: e :: s2)
                      = cntOut t (strSt (strSt (true, false) '\\') e) s2 from
                    by simp [cntOut, strSt]]
                  rw [show strSt (strSt (true, false) '\\') e
                      = (true, false) from by simp [strSt], hcnt t]
            · exact absurd h (by simp)
        · rw [if_neg hb] at h
          split at h
          · exact absurd h (by simp)
          · cases hsb : pStrBody rest with
            | none => rw [hsb] at h; exact absurd h (by simp)
            | some pr =>
              obtain ⟨s1, r1⟩ := pr
              rw [hsb] at h
              simp only [Option.some.injEq, Prod.mk.injEq] at h
              have hlen : rest.length ≤ n := by
                simp only [List.length_cons] at hl
                omega
              obtain ⟨he, hst, hcnt⟩ := ih rest hlen s1 r1 hsb
              rw [← h.1, ← h.2]
              refine ⟨by rw [he]; rfl, ?_, ?_⟩
              · show stRun (true, false) (c :: s1) = (true, false)
                rw [stRun, strSt_in_plain hb hq]
                exact hst
              · intro t
                show cntOut t (true, false) (c :: s1) = 0
                rw [cntOut, strSt_in_plain hb hq, hcnt t]
                rfl

/-- A parsed string token (opening quote, raw body, closing quote) is a
balanced segment. -/
theorem preOk_strtok {rest s r : List Char} (h : pStrBody rest = some (s, r)) :
    PreOk ('"' :: rest) r := by
  obtain ⟨he, hst, hcnt⟩ := pStrBody_spec rest.length rest (Nat.le_refl _) s r h
  refine ⟨'"' :: (s ++ ['"']), ?_, ?_, ?_, ?_⟩
  · rw [he]
    simp
  · show stRun (false, false) ('"' :: (s ++ ['"'])) = (false, false)
    rw [stRun, show strSt (false, false) '"' = (true, false) from rfl,
      stRun_append, hst]
    rfl
  · show cntOut '{' _ _ = cntOut '}' _ _
    rw [cntOut, cntOut, show strSt (false, false) '"' = (true, false) from rfl,
      cntOut_append, cntOut_append, hst, hcnt '{', hcnt '}']
    rfl
  · show cntOut '[' _ _ = cntOut ']' _ _
    rw [cntOut, cntOut, show strSt (false, false) '"' = (true, false) from rfl,
      cntOut_append, cntOut_append, hst, hcnt '[', hcnt ']']
    rfl

theorem isDigit_plain {c : Char} (h : c.isDigit = true) : plainCh c := by
  refine ⟨?_, ?_, ?_, ?_, ?_⟩ <;>
    (intro he; subst he; exact absurd h (by decide))

theorem pIntPart_spec {l ip r : List Char} (h : pIntPart l = some (ip, r)) :
    l = ip ++ r ∧ ∀ c ∈ ip, plainCh c := by
  cases l with
  | nil => simp [pIntPart] at h
  | cons c rest =>
    rw [pIntPart] at h
    by_cases h0 : c = '0'
    · rw [if_pos h0] at h
      simp only [Option.some.injEq, Prod.mk.injEq] at h
      subst h0
      rw [← h.1, ← h.2]
      refine ⟨rfl, ?_⟩
      intro x hx
      rw [List.mem_singleton] at hx
      subst hx
      exact isDigit_plain (by decide)
    · rw [if_neg h0] at h
      by_cases hd : c.isDigit
      · rw [if_pos hd] at h
        simp only [Option.some.injEq, Prod.mk.injEq] at h
        rw [← h.1, ← h.2]
        constructor
        · show c :: rest = (c :: rest.takeWhile Char.isDigit)
            ++ rest.dropWhile Char.isDigit
          rw [List.cons_append, List.takeWhile_append_dropWhile]
        · intro x hx
          rcases List.mem_cons.mp hx with hx | hx
          · subst hx; exact isDigit_plain hd
          · exact isDigit_plain (List.mem_takeWhile_imp hx)
      · rw [if_neg hd] at h
        exact absurd h (by simp)

theorem pFracPart_spec (l : List Char) :
    l = (pFracPart l).1 ++ (pFracPart l).2 ∧
    ∀ c ∈ (pFracPart l).1, plainCh c := by
  cases l with
  | nil => exact ⟨rfl, by simp [pFracPart]⟩
  | cons c r =>
    rw [pFracPart]
    by_cases hc : c = '.'
    · rw [if_pos hc]
      by_cases hd : r.takeWhile Char.isDigit = []
      · rw [if_pos hd]
        exact ⟨rfl, by simp⟩
      · rw [if_neg hd]
        constructor
        · show c :: r = (c :: r.takeWhile Char.isDigit)
            ++ r.dropWhile Char.isDigit
          rw [List.cons_append, List.takeWhile_append_dropWhile]
        · intro x hx
          rcases List.mem_cons.mp hx with hx | hx
          · subst hx hc
            refine ⟨?_, ?_, ?_, ?_, ?_⟩ <;> decide
          · exact isDigit_plain (List.mem_takeWhile_imp hx)
    · rw [if_neg hc]
      exact ⟨rfl, by simp⟩

theorem signCh_plain {c : Char} (h : c = '+' ∨ c = '-') : plainCh c := by
  rcases h with h | h <;> subst h <;>
    exact ⟨by decide, by decide, by decide, by decide, by decide⟩

theorem expCh_plain {c : Char} (h : c = 'e' ∨ c = 'E') : plainCh c := by
  rcases h with h | h <;> subst h <;>
    exact ⟨by decide, by decide, by decide, by decide, by decide⟩

theorem pExpPart_spec (l : List Char) :
    l = (pExpPart l).1 ++ (pExpPart l).2 ∧
    ∀ c ∈ (pExpPart l).1, plainCh c := by
  match l with
  | [] => exact ⟨rfl, by simp [pExpPart]⟩
  | [e] => exact ⟨rfl, by simp [pExpPart]⟩
  | e :: s :: r2 =>
    rw [pExpPart]
    by_cases he : e = 'e' ∨ e = 'E'
    · rw [if_pos he]
      by_cases hs : s = '+' ∨ s = '-'
      · rw [if_pos hs]
        by_cases hd : r2.takeWhile Char.isDigit = []
        · rw [if_pos hd]
          exact ⟨rfl, by simp⟩
        · rw [if_neg hd]
          constructor
          · show e :: s :: r2 = (e :: s :: r2.takeWhile Char.isDigit)
              ++ r2.dropWhile Char.isDigit
            rw [List.cons_append, List.cons_append,
              List.takeWhile_append_dropWhile]
          · intro x hx
            rcases List.mem_cons.mp hx with hx | hx
            · subst hx; exact expCh_plain he
            · rcases List.mem_cons.mp hx with hx | hx
              · subst hx; exact signCh_plain hs
              · exact isDigit_plain (List.mem_takeWhile_imp hx)
      · rw [if_neg hs]
        by_cases hd : (s :: r2).takeWhile Char.isDigit = []
        · rw [if_pos hd]
          exact ⟨rfl, by simp⟩
        · rw [if_neg hd]
          constructor
          · show e :: s :: r2 = (e :: (s :: r2).takeWhile Char.isDigit)
              ++ (s :: r2).dropWhile Char.isDigit
            rw [List.cons_append, List.takeWhile_append_dropWhile]
          · intro x hx
            rcases List.mem_cons.mp hx with hx | hx
            · subst hx; exact expCh_plain he
            · exact isDigit_plain (List.mem_takeWhile_imp hx)
    · rw [if_neg he]
      exact ⟨rfl, by simp⟩

theorem pNumTail_spec {l lex r : List Char} (h : pNumTail l = some (lex, r)) :
    l = lex ++ r ∧ ∀ c ∈ lex, plainCh c := by
  unfold pNumTail at h
  cases hip : pIntPart l with
  | none => rw [hip] at h; exact absurd h (by simp)
  | some pr =>
    obtain ⟨ip, r1⟩ := pr
    rw [hip] at h
    simp only [Option.some.injEq, Prod.mk.injEq] at h
    obtain ⟨hi1, hi2⟩ := pIntPart_spec hip
    obtain ⟨hf1, hf2⟩ := pFracPart_spec r1
    obtain ⟨he1, he2⟩ := pExpPart_spec (pFracPart r1).2
    rw [← h.1, ← h.2]
    constructor
    · conv_lhs => rw [hi1]
      conv_lhs => rw [hf1]
      conv_lhs => rw [he1]
      simp [List.append_assoc]
    · intro x hx
      rcases List.mem_append.mp hx with hx | hx
      · rcases List.mem_append.mp hx with hx | hx
        · exact hi2 x hx
        · exact hf2 x hx
      · exact he2 x hx

theorem preOk_num {l lex r : List Char} (h : pNum l = some (lex, r)) :
    PreOk l r := by
  cases l with
  | nil => simp [pNum] at h
  | cons c rest =>
    rw [pNum] at h
    by_cases hm : c = '-'
    · rw [if_pos hm] at h
      cases ht : pNumTail rest with
      | none => rw [ht] at h; exact absurd h (by simp)
      | some pr =>
        obtain ⟨lex0, r0⟩ := pr
        rw [ht] at h
        simp only [Option.some.injEq, Prod.mk.injEq] at h
        obtain ⟨h1, h2⟩ := pNumTail_spec ht
        refine ⟨c :: lex0, ?_, ?_⟩
        · rw [← h.2, h1]; rfl
        · refine balL_of_plain ?_
          intro x hx
          rcases List.mem_cons.mp hx with hx | hx
          · subst hx hm
            exact ⟨by decide, by decide, by decide, by decide, by decide⟩
          · exact h2 x hx
    · rw [if_neg hm] at h
      obtain ⟨h1, h2⟩ := pNumTail_spec h
      exact ⟨lex, h1, balL_of_plain h2⟩

/-- Wrapping a balanced span in `{`/`}` consumes a balanced segment. -/
theorem preOk_brace {rest r2 : List Char} (h : PreOk rest ('}' :: r2)) :
    PreOk ('{' :: rest) r2 := by
  obtain ⟨p, hp, hb1, hb2, hb3⟩ := h
  refine ⟨'{' :: (p ++ ['}']), ?_, ?_, ?_, ?_⟩
  · rw [hp]; simp
  · show stRun (false, false) ('{' :: (p ++ ['}'])) = (false, false)
    rw [stRun, show strSt (false, false) '{' = (false, false) from rfl,
      stRun_append, hb1]
    rfl
  · show cntOut '{' _ _ = cntOut '}' _ _
    rw [cntOut, cntOut, show strSt (false, false) '{' = (false, false) from rfl,
      cntOut_append, cntOut_append, hb1, hb2]
    simp [cntOut]
    omega
  · show cntOut '[' _ _ = cntOut ']' _ _
    rw [cntOut, cntOut, show strSt (false, false) '{' = (false, false) from rfl,
      cntOut_append, cntOut_append, hb1, hb3]
    simp [cntOut]

/-- Wrapping a balanced span in `[`/`]` consumes a balanced segment. -/
theorem preOk_brk {rest r2 : List Char} (h : PreOk rest (']' :: r2)) :
    PreOk ('[' :: rest) r2 := by
  obtain ⟨p, hp, hb1, hb2, hb3⟩ := h
  refine ⟨'[' :: (p ++ [']']), ?_, ?_, ?_, ?_⟩
  · rw [hp]; simp
  · show stRun (false, false) ('[' :: (p ++ [']'])) = (false, false)
    rw [stRun, show strSt (false, false) '[' = (false, false) from rfl,
      stRun_append, hb1]
    rfl
  · show cntOut '{' _ _ = cntOut '}' _ _
    rw [cntOut, cntOut, show strSt (false, false) '[' = (false, false) from rfl,
      cntOut_append, cntOut_append, hb1, hb2]
    simp [cntOut]
  · show cntOut '[' _ _ = cntOut ']' _ _
    rw [cntOut, cntOut, show strSt (false, false) '[' = (false, false) from rfl,
      cntOut_append, cntOut_append, hb1, hb3]
    simp [cntOut]
    omega

/-- Every successful run of the JSON sub-parsers consumes a balanced
segment of its input (mutual induction on the fuel). -/
theorem parse_preOk : ∀ n : Nat,
    (∀ l v r, pVal n l = some (v, r) → PreOk l r) ∧
    (∀ l vs r, pElems n l = some (vs, r) → PreOk l r) ∧
    (∀ l ms r, pMembs n l = some (ms, r) → PreOk l r) := by
  intro n
  induction n with
  | zero =>
    refine ⟨?_, ?_, ?_⟩ <;> (intro l x r h; simp [pVal, pElems, pMembs] at h)
  | succ n ih =>
    obtain ⟨ihV, ihE, ihM⟩ := ih
    refine ⟨?_, ?_, ?_⟩
    · -- pVal
      intro l v r h
      cases l with
      | nil => simp [pVal] at h
      | cons c rest =>
        simp only [pVal] at h
        by_cases hq : c = '"'
        · rw [if_pos hq] at h
          cases hsb : pStrBody rest with
          | none => rw [hsb] at h; exact absurd h (by simp)
          | some pr =>
            obtain ⟨s, r'⟩ := pr
            rw [hsb] at h
            simp only [Option.some.injEq, Prod.mk.injEq] at h
            subst hq
            rw [← h.2]
            exact preOk_strtok hsb
        · rw [if_neg hq] at h
          by_cases hbr : c = '{'
          · rw [if_pos hbr] at h
            subst hbr
            split at h
            · rename_i r2 heq
              simp only [Option.some.injEq, Prod.mk.injEq] at h
              rw [← h.2]
              refine preOk_brace ?_
              have h1 := preOk_skipWs rest
              rwa [heq] at h1
            · split at h
              · rename_i ms r2 hm
                simp only [Option.some.injEq, Prod.mk.injEq] at h
                rw [← h.2]
                exact preOk_brace
                  (preOk_trans (preOk_skipWs rest) (ihM _ _ _ hm))
              · exact absurd h (by simp)
          · rw [if_neg hbr] at h
            by_cases hbk : c = '['
            · rw [if_pos hbk] at h
              subst hbk
              split at h
              · rename_i r2 heq
                simp only [Option.some.injEq, Prod.mk.injEq] at h
                rw [← h.2]
                refine preOk_brk ?_
                have h1 := preOk_skipWs rest
                rwa [heq] at h1
              · split at h
                · rename_i vs r2 he
                  simp only [Option.some.injEq, Prod.mk.injEq] at h
                  rw [← h.2]
                  exact preOk_brk
                    (preOk_trans (preOk_skipWs rest) (ihE _ _ _ he))
                · exact absurd h (by simp)
            · rw [if_neg hbk] at h
              by_cases hT : c = 't'
              · rw [if_pos hT] at h
                split at h
                · rename_i r' heq
                  simp only [Option.some.injEq, Prod.mk.injEq] at h
                  rw [← h.2]
                  exact ⟨['t', 'r', 'u', 'e'], heq, by decide⟩
                · exact absurd h (by simp)
              · rw [if_neg hT] at h
                by_cases hF : c = 'f'
                · rw [if_pos hF] at h
                  split at h
                  · rename_i r' heq
                    simp only [Option.some.injEq, Prod.mk.injEq] at h
                    rw [← h.2]
                    exact ⟨['f', 'a', 'l', 's', 'e'], heq, by decide⟩
                  · exact absurd h (by simp)
                · rw [if_neg hF] at h
                  by_cases hN : c = 'n'
                  · rw [if_pos hN] at h
                    split at h
                    · rename_i r' heq
                      simp only [Option.some.injEq, Prod.mk.injEq] at h
                      rw [← h.2]
                      exact ⟨['n', 'u', 'l', 'l'], heq, by decide⟩
                    · exact absurd h (by simp)
                  · rw [if_neg hN] at h
                    cases hn : pNum (c :: rest) with
                    | none => rw [hn] at h; exact absurd h (by simp)
                    | some pr =>
                      obtain ⟨lex, r'⟩ := pr
                      rw [hn] at h
                      simp only [Option.some.injEq, Prod.mk.injEq] at h
                      rw [← h.2]
                      exact preOk_num hn
    · -- pElems
      intro l vs r h
      simp only [pElems] at h
      split at h
      · rename_i v0 r0 hv
        have hl : PreOk l r0 := preOk_trans (preOk_skipWs l) (ihV _ _ _ hv)
        split at h
        · rename_i r2 heq
          split at h
          · rename_i vs0 r3 he
            simp only [Option.some.injEq, Prod.mk.injEq] at h
            rw [← h.2]
            have h2 : PreOk r0 (',' :: r2) := by
              have := preOk_skipWs r0
              rwa [heq] at this
            exact preOk_trans hl (preOk_trans h2
              (preOk_trans (preOk_cons_plain (by decide)) (ihE _ _ _ he)))
          · exact absurd h (by simp)
        · simp only [Option.some.injEq, Prod.mk.injEq] at h
          rw [← h.2]
          exact preOk_trans hl (preOk_skipWs r0)
      · exact absurd h (by simp)
    · -- pMembs
      intro l ms r h
      simp only [pMembs] at h
      split at h
      · rename_i r0 heq0
        have p0 : PreOk l ('"' :: r0) := by
          have := preOk_skipWs l
          rwa [heq0] at this
        split at h
        · rename_i key r1 hsb
          have p1 : PreOk l r1 := preOk_trans p0 (preOk_strtok hsb)
          split at h
          · rename_i r3 heq1
            split at h
            · rename_i v0 r4 hv
              have p2 : PreOk r1 r4 := by
                have q1 : PreOk r1 (':' :: r3) := by
                  have := preOk_skipWs r1
                  rwa [heq1] at this
                exact preOk_trans q1 (preOk_trans (preOk_cons_plain (by decide))
                  (preOk_trans (preOk_skipWs r3) (ihV _ _ _ hv)))
              split at h
              · rename_i r6 heq2
                split at h
                · rename_i ms0 r7 hm
                  simp only [Option.some.injEq, Prod.mk.injEq] at h
                  rw [← h.2]
                  have p3 : PreOk r4 (',' :: r6) := by
                    have := preOk_skipWs r4
                    rwa [heq2] at this
                  exact preOk_trans p1 (preOk_trans p2 (preOk_trans p3
                    (preOk_trans (preOk_cons_plain (by decide)) (ihM _ _ _ hm))))
                · exact absurd h (by simp)
              · simp only [Option.some.injEq, Prod.mk.injEq] at h
                rw [← h.2]
                exact preOk_trans p1 (preOk_trans p2 (preOk_skipWs r4))
            · exact absurd h (by simp)
          · exact absurd h (by simp)
        · exact absurd h (by simp)
      · exact absurd h (by simp)

/-- A string accepted by the `JSON.parse` model is balanced: the string
scan traverses it completely and the outside-string delimiter counts
match. -/
theorem jsonParseL_balanced {l : List Char} {v : JVal}
    (h : jsonParseL l = some v) : BalL l := by
  unfold jsonParseL at h
  split at h
  · rename_i v0 r hp
    split at h
    · rename_i hr
      have h1 : PreOk l r :=
        preOk_trans (preOk_skipWs l) ((parse_preOk _).1 _ _ _ hp)
      have h2 : PreOk r [] := by
        have := preOk_skipWs r
        rwa [hr] at this
      obtain ⟨pre, hpre, hb⟩ := preOk_trans h1 h2
      rw [List.append_nil] at hpre
      rwa [hpre]
    · exact absurd h (by simp)
  · exact absurd h (by simp)

theorem fixJSONL_eq (input : List Char) :
    fixJSONL input =
      if jsTrimL input = [] then jsTrimL input
      else if (jsonParseL (jsTrimL input)).isSome then jsTrimL input
      else if (jsonParseL (fixJSONStructureL (jsTrimL input))).isSome then
        fixJSONStructureL (jsTrimL input)
      else stripTrailingCommasL (fixJSONStructureL (jsTrimL input)) := rfl

/-- C3 (counterexample to the claim as stated): the claim is not true of
every input.  For the input consisting of a single `]`, `fixJSON`
returns `]` unchanged (the scan ignores a closer with an empty stack but
still emits it), whose bracket counts are unequal.  Worse, for the input
`[ "\` the scan ends inside a string with a pending escape, so the
appended quote is itself escaped and the appended `]` lands inside the
string literal: even the weaker `≤` direction fails for it. -/
theorem c3_counterexample :
    fixJSON "]" = "]" ∧
    ¬ (cntOut '{' (false, false) (fixJSON "]").data
         = cntOut '}' (false, false) (fixJSON "]").data ∧
       cntOut '[' (false, false) (fixJSON "]").data
         = cntOut ']' (false, false) (fixJSON "]").data) ∧
    cntOut ']' (false, false) (fixJSON "[ \"\\").data
      < cntOut '[' (false, false) (fixJSON "[ \"\\").data := by
  refine ⟨rfl, by decide, by decide⟩

/-- C3 (amended): provided the repair scan does not end inside a string
literal with a pending escape, every opening delimiter counted outside
string-literal spans of `fixJSON`'s output is covered by a closing one:
`count({) ≤ count(})` and `count([) ≤ count(])` outside strings.
Equality still fails in general (a stray closer is emitted unmatched),
so only the `≤` direction holds. -/
theorem c3_amended (input : String) (h : scanEndOk (jsTrimL input.data)) :
    cntOut '{' (false, false) (fixJSON input).data
      ≤ cntOut '}' (false, false) (fixJSON input).data ∧
    cntOut '[' (false, false) (fixJSON input).data
      ≤ cntOut ']' (false, false) (fixJSON input).data := by
  show cntOut '{' (false, false) (fixJSONL input.data)
      ≤ cntOut '}' (false, false) (fixJSONL input.data) ∧
    cntOut '[' (false, false) (fixJSONL input.data)
      ≤ cntOut ']' (false, false) (fixJSONL input.data)
  rw [fixJSONL_eq]
  by_cases h0 : jsTrimL input.data = []
  · rw [if_pos h0, h0]
    exact ⟨Nat.le_refl _, Nat.le_refl _⟩
  · rw [if_neg h0]
    by_cases h1 : (jsonParseL (jsTrimL input.data)).isSome
    · rw [if_pos h1]
      obtain ⟨v, hv⟩ := Option.isSome_iff_exists.mp h1
      obtain ⟨_, e1, e2⟩ := jsonParseL_balanced hv
      exact ⟨Nat.le_of_eq e1, Nat.le_of_eq e2⟩
    · rw [if_neg h1]
      by_cases h2 : (jsonParseL (fixJSONStructureL (jsTrimL input.data))).isSome
      · rw [if_pos h2]
        obtain ⟨v, hv⟩ := Option.isSome_iff_exists.mp h2
        obtain ⟨_, e1, e2⟩ := jsonParseL_balanced hv
        exact ⟨Nat.le_of_eq e1, Nat.le_of_eq e2⟩
      · rw [if_neg h2]
        have hc := fixJSONStructureL_counts (jsTrimL input.data) h
        have hs : stripTrailingCommasL (fixJSONStructureL (jsTrimL input.data))
            = stcAux (fixJSONStructureL (jsTrimL input.data)) := rfl
        rw [hs, cntOut_stcAux '{' (by decide), cntOut_stcAux '}' (by decide),
          cntOut_stcAux '[' (by decide), cntOut_stcAux ']' (by decide)]
        exact hc

theorem c3_witness :
    scanEndOk (jsTrimL ("[1,\x7b" : String).data) ∧
    (cntOut '{' (false, false) (fixJSON "[1,\x7b").data
       ≤ cntOut '}' (false, false) (fixJSON "[1,\x7b").data ∧
     cntOut '[' (false, false) (fixJSON "[1,\x7b").data
       ≤ cntOut ']' (false, false) (fixJSON "[1,\x7b").data) :=
  ⟨by decide, c3_amended "[1,\x7b" (by decide)⟩

end SmartDraw
